import Mathlib

/-!
# Verification of the mithic CRDT event store against its specification

Shallow embedding of `packages/crdt/src/simple/store.ts` (`SimpleEventStore`)
and `packages/collections` (`ContentAddressedMapStore`), together with the
parts of the repository that the store imports but whose sources are not in
this snapshot (`simple/time.ts`, `simple/indices.ts`); those are modelled
from the specification text and are marked as such in their doc comments.

Conventions of the embedding:
* identifiers (`ContentId`) are natural numbers; the content hash is an
  injective-by-construction pairing-based encoding of the event record;
* the backing maps (content store `data`, index store `index`) are
  association lists; the range-queryable index is modelled by sorting the
  association list by the byte order of its keys and scanning the bounds,
  which realises the sorted-map contract of §4.3 of the spec;
* asynchronous methods are modelled as pure state-passing functions; the
  injectable failures of the backing stores are an explicit `Env` record;
* `put` additionally returns the (mutated) caller event object and a trace
  of the backing-store write operations it performed, in order, so that the
  temporal claims about write phases are expressible.
-/

namespace Mithic

/-- Error codes used by `@mithic/commons`' `operationError` as far as the
store uses them (`InvalidArg`, `MissingDep`, `OpFailed`), plus `Abort` to
stand for any foreign error code produced by a backing store. -/
inductive ErrCode where
  | InvalidArg
  | MissingDep
  | OpFailed
  | Abort
deriving DecidableEq, Repr

/-- A coded error: `operationError(msg, code, detail)`.  The `detail` field
carries a list of identifiers (the store only ever puts identifiers there);
the wrapped `cause` of the TypeScript error is not modelled. -/
structure Err where
  code : ErrCode
  msg : String
  detail : List Nat
deriving DecidableEq, Repr

/-- `EventMetadata` of `packages/crdt/src/event.ts`: parent identifiers,
optional root identifier, scoped type string, logical timestamp.
`createdAt = 0` plays the role of the absent / zero timestamp (the source
reads it as `event.meta.createdAt || 0`). -/
structure EventMeta where
  parents : List Nat
  root : Option Nat
  type : String
  createdAt : Nat
deriving DecidableEq, Repr

/-- An `Event`: opaque payload plus metadata. -/
structure Event where
  payload : Nat
  meta : EventMeta
deriving DecidableEq, Repr

/-- Encoding of a list of naturals as a natural, via `Nat.pair`. -/
def encList : List Nat → Nat
  | [] => 0
  | x :: xs => Nat.pair x (encList xs) + 1

/-- Encoding of an optional natural as a natural. -/
def encOpt : Option Nat → Nat
  | none => 0
  | some x => x + 1

/-- Encoding of a string as a natural (by its character codes). -/
def encStr (s : String) : Nat :=
  encList (s.data.map Char.toNat)

/-- The content address of an event: a deterministic, collision-free digest
of the canonical encoding of the whole record, timestamp included
(spec §3 "Identifier", §4.5 step 4).  The cryptographic hash of
`ContentAddressedMapStore` is modelled by an injective pairing encoding. -/
def encodeEvent (e : Event) : Nat :=
  Nat.pair e.payload
    (Nat.pair (encList e.meta.parents)
      (Nat.pair (encOpt e.meta.root)
        (Nat.pair (encStr e.meta.type) e.meta.createdAt)))

/-- Association-list lookup (first binding wins), the model of `map.get`. -/
def alGet {κ α : Type} [DecidableEq κ] : List (κ × α) → κ → Option α
  | [], _ => none
  | (k', v) :: rest, k => if k' = k then some v else alGet rest k

/-- Association-list update, the model of `map.set`: replace the first
binding of the key if present, append otherwise. -/
def alSet {κ α : Type} [DecidableEq κ] : List (κ × α) → κ → α → List (κ × α)
  | [], k, v => [(k, v)]
  | (k', v') :: rest, k, v =>
    if k' = k then (k, v) :: rest else (k', v') :: alSet rest k v

/-- Batch `setMany`: fold `alSet` over a list of keys, all mapped to the
same value (the store maps every index key of an event to its id). -/
def alSetAll {κ α : Type} [DecidableEq κ] (m : List (κ × α)) (ks : List κ) (v : α) :
    List (κ × α) :=
  ks.foldl (fun acc k => alSet acc k v) m

/-- Batch `deleteMany`: drop every binding whose key is in `ks`. -/
def alDelAll {κ α : Type} [DecidableEq κ] (m : List (κ × α)) (ks : List κ) :
    List (κ × α) :=
  m.filter (fun kv => decide (kv.1 ∉ ks))

/-- Modelled from the spec: `simple/time.ts` (`atomicHybridTime`) is not in
the source snapshot.  §4.1: `tick(referenceTime?)` "returns a value strictly
greater than any timestamp it has previously returned and strictly greater
than `referenceTime` if supplied".  The clock state is its last output, so
the deterministic realisation of that contract is `max last ref + 1`. -/
def tick (last ref : Nat) : Nat :=
  max last ref + 1

/-- Split a character list into segments at the separator `'/'` (the model
of the event-type separator regex). -/
def splitSegs : List Char → List (List Char)
  | [] => [[]]
  | c :: cs =>
    match splitSegs cs with
    | [] => [[c]]
    | g :: gs => if c = '/' then [] :: g :: gs else (c :: g) :: gs

/-- Join segments back with the separator `'/'`. -/
def joinSegs : List (List Char) → List Char
  | [] => []
  | [g] => g
  | g :: gs => g ++ '/' :: joinSegs gs

/-- Modelled from the spec (§4.4): every namespace level of a separator-split
type, e.g. type `"a/b/c"` yields the scopes `"a"`, `"a/b"`, `"a/b/c"`. -/
def typeScopes (t : String) : List (List Char) :=
  let segs := splitSegs t.data
  (List.range segs.length).map (fun i => joinSegs (segs.take (i + 1)))

/-- Modelled from the spec (§4.4): the byte-sequence index keys, one
constructor per prefix-partitioned key family.  The byte layout
`[family-prefix][scope][big-endian timestamp][identifier]` is modelled by
the constructor tag and its components; the order `keyLe` below mirrors the
lexicographic byte order, which the spec's §3 invariant ties to time order
within a family and scope. -/
inductive IndexKey where
  | global (t : Nat) (id : Nat)
  | typed (scope : List Char) (t : Nat) (id : Nat)
  | rooted (root : Nat) (t : Nat) (id : Nat)
  | head (id : Nat)
deriving DecidableEq, Repr

/-- The key-family tag, mirroring the family prefix byte. -/
def keyFam : IndexKey → Nat
  | .global _ _ => 0
  | .typed _ _ _ => 1
  | .rooted _ _ _ => 2
  | .head _ => 3

/-- The timestamp component of an index key (head-marker keys have none). -/
def keyTime : IndexKey → Nat
  | .global t _ => t
  | .typed _ t _ => t
  | .rooted _ t _ => t
  | .head _ => 0

/-- The identifier component of an index key. -/
def keyId : IndexKey → Nat
  | .global _ id => id
  | .typed _ _ id => id
  | .rooted _ _ id => id
  | .head id => id

/-- Modelled from the spec: `simple/indices.ts` (`getEventIndexKeys`) is not
in the source snapshot.  §4.4 `deriveKeys`: with `headOnly` false the full
set — global, type-scoped at every namespace level, root-scoped (when a root
is present), plus the event's own head marker; with `headOnly` true only the
head marker (used to deregister parents). -/
def getEventIndexKeys (key : Nat) (e : Event) (headOnly : Bool) : List IndexKey :=
  if headOnly then [.head key]
  else
    .global e.meta.createdAt key ::
      ((typeScopes e.meta.type).map (fun s => .typed s e.meta.createdAt key)
        ++ (match e.meta.root with
            | some r => [IndexKey.rooted r e.meta.createdAt key]
            | none => [])
        ++ [IndexKey.head key])

/-- Modelled from the spec: `simple/indices.ts`
(`getEventIndexRangeQueryOptions`) is not in the source snapshot.  §4.4
`deriveQueryRange`: heads-only selects the head family regardless of time;
otherwise root takes precedence over type; the lower bound excludes
everything at or before `sinceTime`.  The range bounds are modelled as the
membership predicate of the scanned key interval. -/
def getEventIndexRangeQueryOptions (sinceTime : Nat) (type? : Option String)
    (root? : Option Nat) (head : Bool) : IndexKey → Bool :=
  if head then fun k => keyFam k = 3
  else
    match root? with
    | some r => fun k =>
        match k with
        | .rooted r' t _ => r' = r && sinceTime < t
        | _ => false
    | none =>
      match type? with
      | some s => fun k =>
          match k with
          | .typed sc t _ => sc = s.data && sinceTime < t
          | _ => false
      | none => fun k =>
          match k with
          | .global t _ => sinceTime < t
          | _ => false

/-- The byte order of index keys: family prefix first, then timestamp,
then identifier (type/root scope bytes are not compared here because every
range query stays inside a single family and scope). -/
def keyLe (a b : IndexKey) : Prop :=
  keyFam a < keyFam b ∨
    (keyFam a = keyFam b ∧
      (keyTime a < keyTime b ∨ (keyTime a = keyTime b ∧ keyId a ≤ keyId b)))

instance : DecidableRel keyLe := fun a b => by
  unfold keyLe; infer_instance

instance : IsTotal IndexKey keyLe where
  total a b := by unfold keyLe; omega

instance : IsTrans IndexKey keyLe where
  trans a b c hab hbc := by
    unfold keyLe at hab hbc ⊢; omega

instance : IsTotal (IndexKey × Nat) (fun a b => keyLe a.1 b.1) where
  total a b := IsTotal.total a.1 b.1

instance : IsTrans (IndexKey × Nat) (fun a b => keyLe a.1 b.1) where
  trans a b c hab hbc := IsTrans.trans a.1 b.1 c.1 hab hbc

/-- The sorted sequence of index entries: the model of the sorted map
(`BTreeMap`) underlying a range scan. -/
def sortKeys (ix : List (IndexKey × Nat)) : List (IndexKey × Nat) :=
  ix.insertionSort (fun a b => keyLe a.1 b.1)

/-- `limit` handling of a range scan: absent means unbounded. -/
def limitTake {α : Type} : Option Nat → List α → List α
  | none, l => l
  | some n, l => l.take n

/-- A range scan over the index returning stored values: scan the sorted
entries, keep those inside the range bounds, stop after `limit` results
(§4.3 of the spec; `index.values(range)` in the source). -/
def rangeValues (ix : List (IndexKey × Nat)) (pred : IndexKey → Bool)
    (limit : Option Nat) : List Nat :=
  (limitTake limit ((sortKeys ix).filter (fun kv => pred kv.1))).map (fun kv => kv.2)

/-- The mutable backing state of a `SimpleEventStore`: clock state (last
tick output), content store and index store association lists. -/
structure StoreState where
  clock : Nat
  data : List (Nat × Event)
  index : List (IndexKey × Nat)
deriving DecidableEq, Repr

/-- The empty store over fresh backing maps. -/
def emptyStore : StoreState := ⟨0, [], []⟩

/-- Injectable failures of the backing stores, `none` meaning the operation
succeeds: an error yielded by `index.setMany`, an error thrown by
`data.put`, an error yielded by `index.deleteMany`. -/
structure Env where
  idxSetErr : Option Err
  dataPutErr : Option Err
  idxDelErr : Option Err
deriving DecidableEq, Repr

/-- The benign environment: every backing-store operation succeeds. -/
def env0 : Env := ⟨none, none, none⟩

/-- One backing-store write operation performed by `put`, for the trace. -/
inductive Action where
  | setIndex (k : IndexKey) (v : Nat)
  | putData (id : Nat)
  | delIndex (k : IndexKey)
deriving DecidableEq, Repr

/-- What a call to `put` produces: the returned key or thrown error, the
final backing state, the caller's event object after the call (the source
mutates `event.meta.createdAt` in place), and the ordered trace of
backing-store writes performed. -/
structure PutResult where
  result : Except Err Nat
  state : StoreState
  event : Event
  trace : List Action
deriving Repr

/-- The returned key of a `put`, if it succeeded. -/
def resKey (r : PutResult) : Option Nat :=
  match r.result with
  | .ok k => some k
  | .error _ => none

/-- The thrown error of a `put`, if it failed. -/
def resErr (r : PutResult) : Option Err :=
  match r.result with
  | .ok _ => none
  | .error e => some e

/-- Parent resolution (`store.ts` lines 51–63): pair each parent identifier
with its content-store value, keeping only the ones that resolve. -/
def resolveParents (st : StoreState) (ps : List Nat) : List (Nat × Event) :=
  ps.filterMap (fun p => (alGet st.data p).map (fun e => (p, e)))

/-- The missing-dependency list (`store.ts` line 61): the parents that do
not resolve, in input order. -/
def missingOf (st : StoreState) (ps : List Nat) : List Nat :=
  ps.filter (fun p => (alGet st.data p).isNone)

/-- The clock reference of `put` (`store.ts` lines 50, 59): the maximum of
the caller's `createdAt` hint and `parent.createdAt + 1` over the resolved
parents. -/
def latestRef (hint : Nat) (parents : List (Nat × Event)) : Nat :=
  parents.foldl (fun acc pr => max acc (pr.2.meta.createdAt + 1)) hint

/-- The caller's event after `put`'s in-place timestamp assignment
(`store.ts` line 68): `createdAt` overwritten with the tick result. -/
def postEvent (st : StoreState) (e : Event) : Event :=
  let t := tick st.clock (latestRef e.meta.createdAt (resolveParents st e.meta.parents))
  { e with meta := { e.meta with createdAt := t } }

/-- `SimpleEventStore.put` (`store.ts` lines 45–115): validation, parent
resolution, timestamp assignment, duplicate short-circuit, then the three
write phases (index entries, content, parent head-marker removal). -/
def put (env : Env) (st : StoreState) (event : Event) : PutResult :=
  if event.meta.root.isNone ∧ event.meta.parents ≠ [] then
    ⟨.error ⟨.InvalidArg, "Missing root Id", []⟩, st, event, []⟩
  else if missingOf st event.meta.parents ≠ [] then
    ⟨.error ⟨.MissingDep, "Missing dependencies", missingOf st event.meta.parents⟩,
      st, event, []⟩
  else
    let parents := resolveParents st event.meta.parents
    let event' := postEvent st event
    let st1 : StoreState := { st with clock := event'.meta.createdAt }
    let key := encodeEvent event'
    if (alGet st1.data key).isSome then
      ⟨.ok key, st1, event', []⟩
    else
      match env.idxSetErr with
      | some _ =>
        ⟨.error ⟨.OpFailed, "Failed to save indices", []⟩, st1, event', []⟩
      | none =>
        let idxKeys := getEventIndexKeys key event' false
        let st2 : StoreState := { st1 with index := alSetAll st1.index idxKeys key }
        let tr1 := idxKeys.map (fun ik => Action.setIndex ik key)
        match env.dataPutErr with
        | some e => ⟨.error e, st2, event', tr1⟩
        | none =>
          let st3 : StoreState := { st2 with data := alSet st2.data key event' }
          let tr2 := tr1 ++ [Action.putData key]
          if parents = [] then ⟨.ok key, st3, event', tr2⟩
          else
            let oldHeads := parents.flatMap (fun pr => getEventIndexKeys pr.1 pr.2 true)
            match env.idxDelErr with
            | some _ =>
              ⟨.error ⟨.OpFailed, "Failed to delete old indices", []⟩, st3, event', tr2⟩
            | none =>
              ⟨.ok key, { st3 with index := alDelAll st3.index oldHeads }, event',
                tr2 ++ oldHeads.map Action.delIndex⟩

/-- One item of `SimpleEventStore.putMany` (`store.ts` lines 134–150): a
successful `put` yields `(key, none)`; a thrown `MissingDep` error passes
through unchanged; any other thrown error is wrapped as
`operationError('Failed to put', OpFailed, [key])`, the key being the hash
of the (possibly mutated) event after the failed `put`. -/
def putManyItem (env : Env) (st : StoreState) (v : Event) :
    (Nat × Option Err) × StoreState :=
  let r := put env st v
  match r.result with
  | .ok k => ((k, none), r.state)
  | .error e =>
    let k := encodeEvent r.event
    ((k, if e.code = ErrCode.MissingDep then some e
         else some ⟨.OpFailed, "Failed to put", [k]⟩), r.state)

/-- `SimpleEventStore.putMany`: apply `put` per item, threading the store
state, converting thrown errors into per-item results. -/
def putMany (env : Env) (st : StoreState) : List Event → List (Nat × Option Err)
  | [] => []
  | v :: vs =>
    let ir := putManyItem env st v
    ir.1 :: putMany env ir.2 vs

/-- Query options of `keys`/`entries` (`EventStoreQueryOptions`). -/
structure QueryOptions where
  since : List Nat := []
  qtype : Option String := none
  root : Option Nat := none
  head : Bool := false
  limit : Option Nat := none
deriving Repr

/-- The lower time bound from `since` (`store.ts` lines 173–180): the
maximum `createdAt` over the `since` identifiers that resolve in the
content store, `0` if none do. -/
def sinceTimeOf (st : StoreState) (ids : List Nat) : Nat :=
  ids.foldl
    (fun acc id =>
      match alGet st.data id with
      | some e => max acc e.meta.createdAt
      | none => acc) 0

/-- The resumption checkpoint: the last identifier yielded, or nothing. -/
def checkpointOf (ids : List Nat) : List Nat :=
  match ids.getLast? with
  | some c => [c]
  | none => []

/-- `SimpleEventStore.keys` (`store.ts` lines 172–189): resolve `since`,
derive the range, stream identifiers from the index store honouring
`limit`; the completion value is the checkpoint. -/
def keysQuery (st : StoreState) (q : QueryOptions) : List Nat × List Nat :=
  let ids := rangeValues st.index
    (getEventIndexRangeQueryOptions (sinceTimeOf st q.since) q.qtype q.root q.head)
    q.limit
  (ids, checkpointOf ids)

/-- The fixed content-resolution page size of `entries` (`PAGE_SIZE`). -/
def pageSize : Nat := 50

/-- Chunking accumulator for `entries`' page buffering. -/
def chunksGo {α : Type} (n : Nat) : List α → List α → List (List α)
  | [], acc => if acc.isEmpty then [] else [acc.reverse]
  | x :: xs, acc =>
    let acc' := x :: acc
    if acc'.length = n then acc'.reverse :: chunksGo n xs [] else chunksGo n xs acc'

/-- Split a list into consecutive chunks of at most `n` elements. -/
def chunksOf {α : Type} (n : Nat) (l : List α) : List (List α) :=
  chunksGo n l []

/-- `SimpleEventStore.entriesFromKeys` applied to one page: resolve the
identifiers through the content store, keep the pairs that resolve. -/
def entriesFromKeys (st : StoreState) (ks : List Nat) : List (Nat × Event) :=
  ks.filterMap (fun k => (alGet st.data k).map (fun e => (k, e)))

/-- `SimpleEventStore.entries` (`store.ts` lines 191–206): delegate to
`keys`, buffer the identifiers into pages of `pageSize`, resolve each page,
skip identifiers whose content no longer resolves; the completion value is
the checkpoint returned by `keys`. -/
def entriesQuery (st : StoreState) (q : QueryOptions) :
    List (Nat × Event) × List Nat :=
  let kr := keysQuery st q
  ((chunksOf pageSize kr.1).flatMap (fun page => entriesFromKeys st page), kr.2)

/-- `ContentAddressedMapStore.put` (`collections`, part_001 lines 24–28):
compute the content id of the value, `set` it in the backing map, return
the id.  The backing map is an association list keyed by the id. -/
def camPut (m : List (Nat × Event)) (v : Event) : List (Nat × Event) × Nat :=
  (alSet m (encodeEvent v) v, encodeEvent v)

/-- Does some stored event list `id` among its parents? (the "dependent"
relation of the spec's head invariant). -/
def hasDependent (data : List (Nat × Event)) (id : Nat) : Bool :=
  data.any (fun kv => decide (id ∈ kv.2.meta.parents))

/-- States reachable from fresh backing stores by `put` calls whose
backing-store operations all succeed (the failures a call may still report,
validation and missing dependencies, leave the state untouched). -/
inductive Reachable : StoreState → Prop where
  | empty : Reachable emptyStore
  | step (st : StoreState) (e : Event) : Reachable st → Reachable (put env0 st e).state

/-- The index keys registered for a newly stored event (phase 6a). -/
def newIdxKeys (st : StoreState) (e : Event) : List IndexKey :=
  getEventIndexKeys (encodeEvent (postEvent st e)) (postEvent st e) false

/-- The head-marker keys of the resolved parents, deregistered in
phase 6c. -/
def oldHeadKeys (st : StoreState) (e : Event) : List IndexKey :=
  (resolveParents st e.meta.parents).flatMap (fun pr => getEventIndexKeys pr.1 pr.2 true)

/-- The store state after a successful non-duplicate `put`. -/
def putSuccState (st : StoreState) (e : Event) : StoreState :=
  ⟨(postEvent st e).meta.createdAt,
    alSet st.data (encodeEvent (postEvent st e)) (postEvent st e),
    alDelAll (alSetAll st.index (newIdxKeys st e) (encodeEvent (postEvent st e)))
      (oldHeadKeys st e)⟩

/-- The stored timestamp of an identifier (`0` when the content store does
not hold it). -/
def timeOf (st : StoreState) (id : Nat) : Nat :=
  match alGet st.data id with
  | some e => e.meta.createdAt
  | none => 0

/-- The identifiers returned by a heads-only `keys` query. -/
def headsOnlyIds (st : StoreState) : List Nat :=
  (keysQuery st ⟨[], none, none, true, none⟩).1

/-- The state invariant maintained by `put` (over states reached with
successful backing stores): backing maps are duplicate-free, stored
timestamps are positive, distinct and bounded by the clock, stored parents
are themselves stored, and the head-marker and global index families agree
with the content store. -/
structure Inv (st : StoreState) : Prop where
  dataNodup : st.data.Pairwise (fun a b => a.1 ≠ b.1)
  idxNodup : st.index.Pairwise (fun a b => a.1 ≠ b.1)
  timesNodup : st.data.Pairwise (fun a b => a.2.meta.createdAt ≠ b.2.meta.createdAt)
  clockBound : ∀ k e, alGet st.data k = some e →
    0 < e.meta.createdAt ∧ e.meta.createdAt ≤ st.clock
  parentsClosed : ∀ k e, alGet st.data k = some e →
    ∀ p ∈ e.meta.parents, (alGet st.data p).isSome
  headSound : ∀ id v, alGet st.index (.head id) = some v →
    v = id ∧ (alGet st.data id).isSome ∧ hasDependent st.data id = false
  headComplete : ∀ id e, alGet st.data id = some e →
    hasDependent st.data id = false → alGet st.index (.head id) = some id
  globalSound : ∀ t id v, alGet st.index (.global t id) = some v →
    v = id ∧ ∃ e, alGet st.data id = some e ∧ e.meta.createdAt = t
  globalComplete : ∀ id e, alGet st.data id = some e →
    alGet st.index (.global e.meta.createdAt id) = some id

/-! Concrete fixtures used by the witnesses and counterexamples: a
parentless root event `eR`, the store after putting it, a child `eC`
referencing it, and small crafted states. -/

/-- A parentless root event. -/
def eR : Event := ⟨0, ⟨[], none, "a", 0⟩⟩

/-- The root event as stored (timestamp assigned by the clock). -/
def eR1 : Event := postEvent emptyStore eR

/-- The identifier of the stored root event. -/
def kR : Nat := encodeEvent eR1

/-- The store after `put eR` on fresh backing stores. -/
def stR : StoreState := (put env0 emptyStore eR).state

/-- A child event whose single parent (and root) is the stored root. -/
def eC : Event := ⟨1, ⟨[kR], some kR, "a/b", 0⟩⟩

/-- The identifier of the stored child event. -/
def kC : Nat := encodeEvent (postEvent stR eC)

/-- The store after `put eR` then `put eC`. -/
def stRC : StoreState := (put env0 stR eC).state

/-- A store already holding the root event with its assigned timestamp and
a clock that will reproduce it: `put eR` on it takes the duplicate
short-circuit. -/
def stDup : StoreState := ⟨0, [(kR, eR1)], []⟩

/-- An event with one absent parent (`5`) and one present parent (`kR`). -/
def eM : Event := ⟨2, ⟨[5, kR], some kR, "a", 0⟩⟩

/-- An event with an absent parent and no root identifier. -/
def eBad : Event := ⟨2, ⟨[5], none, "a", 0⟩⟩

/-- A state whose index holds a global entry for an identifier with no
content (the content was deleted externally, as §5 of the spec allows). -/
def stGhost : StoreState := ⟨1, [], [(.global 1 7, 7)]⟩

/-! ## Association-list lemmas -/

theorem alGet_alSet {κ α : Type} [DecidableEq κ] (m : List (κ × α)) (k k' : κ) (v : α) :
    alGet (alSet m k v) k' = if k' = k then some v else alGet m k' := by
  induction m with
  | nil =>
    by_cases h : k' = k
    · subst h; simp [alSet, alGet]
    · have h' : ¬ k = k' := fun hh => h hh.symm
      simp [alSet, alGet, h, h']
  | cons kv rest ih =>
    obtain ⟨k1, v1⟩ := kv
    by_cases h1 : k1 = k
    · subst h1
      by_cases h2 : k' = k1
      · subst h2; simp [alSet, alGet]
      · have h2' : ¬ k1 = k' := fun hh => h2 hh.symm
        simp [alSet, alGet, h2, h2']
    · by_cases h2 : k1 = k'
      · subst h2
        simp [alSet, alGet, h1]
      · simp [alSet, alGet, h1, h2, ih]

theorem alSet_of_get_eq {κ α : Type} [DecidableEq κ] (m : List (κ × α)) (k : κ) (v : α)
    (h : alGet m k = some v) : alSet m k v = m := by
  induction m with
  | nil => simp [alGet] at h
  | cons kv rest ih =>
    obtain ⟨k1, v1⟩ := kv
    by_cases h1 : k1 = k
    · subst h1
      simp [alGet] at h
      simp [alSet, h]
    · simp only [alGet, if_neg h1] at h
      simp [alSet, h1, ih h]

theorem mem_alSet {κ α : Type} [DecidableEq κ] {m : List (κ × α)} {k : κ} {v : α}
    {a : κ × α} (h : a ∈ alSet m k v) : a = (k, v) ∨ a ∈ m := by
  induction m with
  | nil =>
    simp only [alSet, List.mem_singleton] at h
    exact Or.inl h
  | cons kv rest ih =>
    obtain ⟨k1, v1⟩ := kv
    by_cases h1 : k1 = k
    · subst h1
      simp only [alSet, if_pos rfl] at h
      rcases List.mem_cons.1 h with h2 | h2
      · exact Or.inl h2
      · exact Or.inr (List.mem_cons_of_mem _ h2)
    · simp only [alSet, if_neg h1, List.mem_cons] at h
      rcases h with h | h
      · exact Or.inr (h ▸ List.mem_cons_self _ _)
      · rcases ih h with h' | h'
        · exact Or.inl h'
        · exact Or.inr (List.mem_cons_of_mem _ h')

theorem alGet_eq_none_iff {κ α : Type} [DecidableEq κ] (m : List (κ × α)) (k : κ) :
    alGet m k = none ↔ ∀ v, (k, v) ∉ m := by
  induction m with
  | nil => simp [alGet]
  | cons kv rest ih =>
    obtain ⟨k1, v1⟩ := kv
    by_cases h1 : k1 = k
    · subst h1
      constructor
      · intro hh; simp [alGet] at hh
      · intro hh; exact absurd (List.mem_cons_self _ _) (hh v1)
    · simp only [alGet, if_neg h1, ih, List.mem_cons]
      constructor
      · intro hh v hv
        rcases hv with hv | hv
        · exact h1 (congrArg Prod.fst hv).symm
        · exact hh v hv
      · intro hh v hv
        exact hh v (Or.inr hv)

theorem alSet_fresh {κ α : Type} [DecidableEq κ] (m : List (κ × α)) (k : κ) (v : α)
    (h : alGet m k = none) : alSet m k v = m ++ [(k, v)] := by
  induction m with
  | nil => simp [alSet]
  | cons kv rest ih =>
    obtain ⟨k1, v1⟩ := kv
    by_cases h1 : k1 = k
    · subst h1; simp [alGet] at h
    · simp only [alGet, if_neg h1] at h
      simp [alSet, h1, ih h]

theorem alGet_mem {κ α : Type} [DecidableEq κ] {m : List (κ × α)} {k : κ} {v : α}
    (h : alGet m k = some v) : (k, v) ∈ m := by
  induction m with
  | nil => simp [alGet] at h
  | cons kv rest ih =>
    obtain ⟨k1, v1⟩ := kv
    by_cases h1 : k1 = k
    · subst h1
      simp [alGet] at h
      subst h
      exact List.mem_cons_self _ _
    · simp only [alGet, if_neg h1] at h
      exact List.mem_cons_of_mem _ (ih h)

theorem mem_alGet {κ α : Type} [DecidableEq κ] {m : List (κ × α)}
    (hn : m.Pairwise (fun a b => a.1 ≠ b.1)) {a : κ × α} (h : a ∈ m) :
    alGet m a.1 = some a.2 := by
  induction m with
  | nil => simp at h
  | cons kv rest ih =>
    obtain ⟨k1, v1⟩ := kv
    rcases List.mem_cons.1 h with h' | h'
    · subst h'; simp [alGet]
    · have hne : k1 ≠ a.1 := (List.pairwise_cons.1 hn).1 a h'
      simp only [alGet, if_neg hne]
      exact ih (List.pairwise_cons.1 hn).2 h'

theorem alSetAll_cons {κ α : Type} [DecidableEq κ] (m : List (κ × α)) (k0 : κ)
    (ks : List κ) (v : α) :
    alSetAll m (k0 :: ks) v = alSetAll (alSet m k0 v) ks v := rfl

theorem alGet_alSetAll {κ α : Type} [DecidableEq κ] (m : List (κ × α)) (ks : List κ)
    (v : α) (k : κ) :
    alGet (alSetAll m ks v) k = if k ∈ ks then some v else alGet m k := by
  induction ks generalizing m with
  | nil => simp [alSetAll]
  | cons k0 ks ih =>
    rw [alSetAll_cons, ih, alGet_alSet]
    by_cases h1 : k ∈ ks
    · simp [h1]
    · by_cases h2 : k = k0
      · simp [h1, h2]
      · simp [h1, h2]

theorem alGet_alDelAll {κ α : Type} [DecidableEq κ] (m : List (κ × α)) (ks : List κ)
    (k : κ) :
    alGet (alDelAll m ks) k = if k ∈ ks then none else alGet m k := by
  induction m with
  | nil => simp [alDelAll, alGet]
  | cons kv rest ih =>
    obtain ⟨k1, v1⟩ := kv
    by_cases hk1 : k1 ∈ ks
    · have hf : alDelAll ((k1, v1) :: rest) ks = alDelAll rest ks := by
        simp [alDelAll, List.filter_cons, hk1]
      rw [hf, ih]
      by_cases hk : k ∈ ks
      · simp [hk]
      · have hne : k1 ≠ k := fun h => hk (h ▸ hk1)
        simp [hk, alGet, hne]
    · have hf : alDelAll ((k1, v1) :: rest) ks = (k1, v1) :: alDelAll rest ks := by
        simp [alDelAll, List.filter_cons, hk1]
      rw [hf]
      by_cases hk2 : k1 = k
      · subst hk2
        simp [alGet, hk1]
      · simp [alGet, hk2, ih]

theorem alSet_pairwise {κ α : Type} [DecidableEq κ] {m : List (κ × α)} (k : κ) (v : α)
    (hn : m.Pairwise (fun a b => a.1 ≠ b.1)) :
    (alSet m k v).Pairwise (fun a b => a.1 ≠ b.1) := by
  induction m with
  | nil => simp [alSet]
  | cons kv rest ih =>
    obtain ⟨k1, v1⟩ := kv
    rcases List.pairwise_cons.1 hn with ⟨hhead, htail⟩
    by_cases h1 : k1 = k
    · subst h1
      simp only [alSet, if_pos rfl]
      exact List.pairwise_cons.2 ⟨hhead, htail⟩
    · simp only [alSet, if_neg h1]
      refine List.pairwise_cons.2 ⟨?_, ih htail⟩
      intro a ha
      rcases mem_alSet ha with h' | h'
      · exact h' ▸ h1
      · exact hhead a h'

theorem alSetAll_pairwise {κ α : Type} [DecidableEq κ] {m : List (κ × α)} (ks : List κ)
    (v : α) (hn : m.Pairwise (fun a b => a.1 ≠ b.1)) :
    (alSetAll m ks v).Pairwise (fun a b => a.1 ≠ b.1) := by
  induction ks generalizing m with
  | nil => exact hn
  | cons k0 ks ih => exact alSetAll_cons m k0 ks v ▸ ih (alSet_pairwise k0 v hn)

theorem alDelAll_pairwise {κ α : Type} [DecidableEq κ] {m : List (κ × α)} (ks : List κ)
    (hn : m.Pairwise (fun a b => a.1 ≠ b.1)) :
    (alDelAll m ks).Pairwise (fun a b => a.1 ≠ b.1) :=
  List.Pairwise.sublist (List.filter_sublist m) hn

theorem mem_alDelAll {κ α : Type} [DecidableEq κ] {m : List (κ × α)} {ks : List κ}
    {a : κ × α} (h : a ∈ alDelAll m ks) : a ∈ m ∧ a.1 ∉ ks := by
  have h1 := List.mem_filter.1 h
  exact ⟨h1.1, by simpa using h1.2⟩

theorem alDelAll_nil {κ α : Type} [DecidableEq κ] (m : List (κ × α)) :
    alDelAll m [] = m := by
  simp [alDelAll]

/-! ## Path equations for `put` -/

theorem put_invalid (env : Env) (st : StoreState) (e : Event)
    (h : e.meta.root.isNone ∧ e.meta.parents ≠ []) :
    put env st e = ⟨.error ⟨.InvalidArg, "Missing root Id", []⟩, st, e, []⟩ := by
  simp only [put]
  rw [if_pos h]

theorem put_missingDep (env : Env) (st : StoreState) (e : Event)
    (h1 : ¬(e.meta.root.isNone ∧ e.meta.parents ≠ []))
    (h2 : missingOf st e.meta.parents ≠ []) :
    put env st e =
      ⟨.error ⟨.MissingDep, "Missing dependencies", missingOf st e.meta.parents⟩,
        st, e, []⟩ := by
  simp only [put]
  rw [if_neg h1, if_pos h2]

theorem put_dup (env : Env) (st : StoreState) (e : Event)
    (h1 : ¬(e.meta.root.isNone ∧ e.meta.parents ≠ []))
    (h2 : ¬ missingOf st e.meta.parents ≠ [])
    (h3 : (alGet st.data (encodeEvent (postEvent st e))).isSome) :
    put env st e = ⟨.ok (encodeEvent (postEvent st e)),
      { st with clock := (postEvent st e).meta.createdAt }, postEvent st e, []⟩ := by
  simp only [put]
  rw [if_neg h1, if_neg h2, if_pos h3]

theorem put_success (st : StoreState) (e : Event)
    (h1 : ¬(e.meta.root.isNone ∧ e.meta.parents ≠ []))
    (h2 : ¬ missingOf st e.meta.parents ≠ [])
    (h3 : ¬ (alGet st.data (encodeEvent (postEvent st e))).isSome = true) :
    put env0 st e = ⟨.ok (encodeEvent (postEvent st e)), putSuccState st e,
      postEvent st e,
      (newIdxKeys st e).map (fun ik => .setIndex ik (encodeEvent (postEvent st e)))
        ++ [.putData (encodeEvent (postEvent st e))]
        ++ (oldHeadKeys st e).map .delIndex⟩ := by
  simp only [put, env0]
  rw [if_neg h1, if_neg h2, if_neg h3]
  by_cases hp : resolveParents st e.meta.parents = []
  · rw [if_pos hp]
    simp [putSuccState, newIdxKeys, oldHeadKeys, hp, alDelAll_nil]
  · rw [if_neg hp]
    simp [putSuccState, newIdxKeys, oldHeadKeys]

theorem put_idxSetErr (err : Err) (d l : Option Err) (st : StoreState) (e : Event)
    (h1 : ¬(e.meta.root.isNone ∧ e.meta.parents ≠ []))
    (h2 : ¬ missingOf st e.meta.parents ≠ [])
    (h3 : ¬ (alGet st.data (encodeEvent (postEvent st e))).isSome = true) :
    put ⟨some err, d, l⟩ st e = ⟨.error ⟨.OpFailed, "Failed to save indices", []⟩,
      { st with clock := (postEvent st e).meta.createdAt }, postEvent st e, []⟩ := by
  simp only [put]
  rw [if_neg h1, if_neg h2, if_neg h3]

theorem put_dataPutErr (ce : Err) (l : Option Err) (st : StoreState) (e : Event)
    (h1 : ¬(e.meta.root.isNone ∧ e.meta.parents ≠ []))
    (h2 : ¬ missingOf st e.meta.parents ≠ [])
    (h3 : ¬ (alGet st.data (encodeEvent (postEvent st e))).isSome = true) :
    put ⟨none, some ce, l⟩ st e = ⟨.error ce,
      ⟨(postEvent st e).meta.createdAt, st.data,
        alSetAll st.index (newIdxKeys st e) (encodeEvent (postEvent st e))⟩,
      postEvent st e,
      (newIdxKeys st e).map (fun ik => .setIndex ik (encodeEvent (postEvent st e)))⟩ := by
  simp only [put]
  rw [if_neg h1, if_neg h2, if_neg h3]
  simp [newIdxKeys]

theorem put_idxDelErr (de : Err) (st : StoreState) (e : Event)
    (h1 : ¬(e.meta.root.isNone ∧ e.meta.parents ≠ []))
    (h2 : ¬ missingOf st e.meta.parents ≠ [])
    (h3 : ¬ (alGet st.data (encodeEvent (postEvent st e))).isSome = true)
    (h4 : resolveParents st e.meta.parents ≠ []) :
    put ⟨none, none, some de⟩ st e =
      ⟨.error ⟨.OpFailed, "Failed to delete old indices", []⟩,
      ⟨(postEvent st e).meta.createdAt,
        alSet st.data (encodeEvent (postEvent st e)) (postEvent st e),
        alSetAll st.index (newIdxKeys st e) (encodeEvent (postEvent st e))⟩,
      postEvent st e,
      (newIdxKeys st e).map (fun ik => .setIndex ik (encodeEvent (postEvent st e)))
        ++ [.putData (encodeEvent (postEvent st e))]⟩ := by
  simp only [put]
  rw [if_neg h1, if_neg h2, if_neg h3, if_neg (by simpa using h4)]
  simp [newIdxKeys]

/-! ## Parent resolution, clock and index-key lemmas -/

theorem missingOf_eq_nil {st : StoreState} {ps : List Nat} :
    missingOf st ps = [] ↔ ∀ p ∈ ps, (alGet st.data p).isSome := by
  simp only [missingOf, List.filter_eq_nil_iff]
  constructor
  · intro h p hp
    have := h p hp
    simp only [Option.isNone_iff_eq_none, decide_eq_true_eq] at this
    cases hh : alGet st.data p
    · exact absurd hh this
    · simp
  · intro h p hp
    have := h p hp
    simp only [Option.isSome_iff_exists] at this
    obtain ⟨v, hv⟩ := this
    simp [hv]

theorem resolveParents_mem {st : StoreState} {ps : List Nat} {p : Nat} {pe : Event}
    (h : (p, pe) ∈ resolveParents st ps) : p ∈ ps ∧ alGet st.data p = some pe := by
  simp only [resolveParents, List.mem_filterMap] at h
  obtain ⟨q, hq, hmap⟩ := h
  cases hget : alGet st.data q with
  | none => rw [hget] at hmap; simp at hmap
  | some qe =>
    rw [hget] at hmap
    simp only [Option.map_some', Option.some.injEq, Prod.mk.injEq] at hmap
    obtain ⟨hqp, hqe⟩ := hmap
    subst hqp
    exact ⟨hq, by rw [hget, hqe]⟩

theorem mem_resolveParents {st : StoreState} {ps : List Nat} {p : Nat} {pe : Event}
    (hp : p ∈ ps) (he : alGet st.data p = some pe) : (p, pe) ∈ resolveParents st ps := by
  simp only [resolveParents, List.mem_filterMap]
  exact ⟨p, hp, by rw [he]; rfl⟩

theorem resolveParents_fst {st : StoreState} {ps : List Nat}
    (h : missingOf st ps = []) : (resolveParents st ps).map Prod.fst = ps := by
  induction ps with
  | nil => rfl
  | cons p ps ih =>
    have hall := missingOf_eq_nil.1 h
    have hp : (alGet st.data p).isSome := hall p (List.mem_cons_self _ _)
    obtain ⟨pe, hpe⟩ := Option.isSome_iff_exists.1 hp
    have hrest : missingOf st ps = [] :=
      missingOf_eq_nil.2 (fun q hq => hall q (List.mem_cons_of_mem _ hq))
    simp only [resolveParents, List.filterMap_cons, hpe, Option.map_some']
    simpa [resolveParents] using ih hrest

theorem resolveParents_ne_nil {st : StoreState} {ps : List Nat}
    (h : missingOf st ps = []) (hne : ps ≠ []) : resolveParents st ps ≠ [] := by
  intro hcon
  have := resolveParents_fst h
  rw [hcon] at this
  exact hne this.symm

theorem le_latestRef (hint : Nat) (l : List (Nat × Event)) : hint ≤ latestRef hint l := by
  induction l generalizing hint with
  | nil => simp [latestRef]
  | cons pr rest ih =>
    calc hint ≤ max hint (pr.2.meta.createdAt + 1) := Nat.le_max_left _ _
    _ ≤ latestRef (max hint (pr.2.meta.createdAt + 1)) rest := ih _
    _ = latestRef hint (pr :: rest) := rfl

theorem latestRef_of_mem {hint : Nat} {l : List (Nat × Event)} {pr : Nat × Event}
    (h : pr ∈ l) : pr.2.meta.createdAt + 1 ≤ latestRef hint l := by
  induction l generalizing hint with
  | nil => simp at h
  | cons q rest ih =>
    rcases List.mem_cons.1 h with h' | h'
    · subst h'
      calc pr.2.meta.createdAt + 1 ≤ max hint (pr.2.meta.createdAt + 1) :=
            Nat.le_max_right _ _
      _ ≤ latestRef (max hint (pr.2.meta.createdAt + 1)) rest := le_latestRef _ _
      _ = latestRef hint (pr :: rest) := rfl
    · exact ih h'

theorem lt_tick_left (last ref : Nat) : last < tick last ref := by
  simp only [tick]; omega

theorem lt_tick_right (last ref : Nat) : ref < tick last ref := by
  simp only [tick]; omega

theorem postEvent_payload (st : StoreState) (e : Event) :
    (postEvent st e).payload = e.payload := rfl

theorem postEvent_parents (st : StoreState) (e : Event) :
    (postEvent st e).meta.parents = e.meta.parents := rfl

theorem postEvent_root (st : StoreState) (e : Event) :
    (postEvent st e).meta.root = e.meta.root := rfl

theorem postEvent_type (st : StoreState) (e : Event) :
    (postEvent st e).meta.type = e.meta.type := rfl

theorem postEvent_createdAt (st : StoreState) (e : Event) :
    (postEvent st e).meta.createdAt =
      tick st.clock (latestRef e.meta.createdAt (resolveParents st e.meta.parents)) := rfl

theorem head_mem_keys_false {key : Nat} {e : Event} {i : Nat} :
    IndexKey.head i ∈ getEventIndexKeys key e false ↔ i = key := by
  simp only [getEventIndexKeys, Bool.false_eq_true, if_neg (by simp : ¬False)]
  constructor
  · intro h
    rcases List.mem_cons.1 h with h' | h'
    · cases h'
    · rcases List.mem_append.1 h' with h2 | h2
      · rcases List.mem_append.1 h2 with h3 | h3
        · obtain ⟨s, _, hs⟩ := List.mem_map.1 h3
          cases hs
        · cases hr : e.meta.root with
          | none => rw [hr] at h3; cases h3
          | some r =>
            rw [hr] at h3
            rcases List.mem_singleton.1 h3 with h4
            cases h4
      · have := List.mem_singleton.1 h2
        exact (IndexKey.head.injEq _ _ ▸ congrArg keyId this)
  · intro h
    subst h
    refine List.mem_cons_of_mem _ (List.mem_append.2 (Or.inr ?_))
    exact List.mem_singleton.2 rfl

theorem global_mem_keys_false {key : Nat} {e : Event} {t i : Nat} :
    IndexKey.global t i ∈ getEventIndexKeys key e false ↔
      t = e.meta.createdAt ∧ i = key := by
  simp only [getEventIndexKeys, Bool.false_eq_true, if_neg (by simp : ¬False)]
  constructor
  · intro h
    rcases List.mem_cons.1 h with h' | h'
    · injection h' with h1 h2
      exact ⟨h1, h2⟩
    · exfalso
      rcases List.mem_append.1 h' with h2 | h2
      · rcases List.mem_append.1 h2 with h3 | h3
        · obtain ⟨s, _, hs⟩ := List.mem_map.1 h3
          cases hs
        · cases hr : e.meta.root with
          | none => rw [hr] at h3; cases h3
          | some r =>
            rw [hr] at h3
            have := List.mem_singleton.1 h3
            cases this
      · have := List.mem_singleton.1 h2
        cases this
  · rintro ⟨h1, h2⟩
    subst h1; subst h2
    exact List.mem_cons_self _ _

theorem mem_keys_true {p : Nat} {pe : Event} {k : IndexKey} :
    k ∈ getEventIndexKeys p pe true ↔ k = .head p := by
  simp [getEventIndexKeys]

theorem mem_oldHeadKeys {st : StoreState} {e : Event} {k : IndexKey} :
    k ∈ oldHeadKeys st e ↔
      ∃ p pe, (p, pe) ∈ resolveParents st e.meta.parents ∧ k = .head p := by
  simp only [oldHeadKeys, List.mem_flatMap]
  constructor
  · rintro ⟨pr, hpr, hk⟩
    exact ⟨pr.1, pr.2, hpr, mem_keys_true.1 hk⟩
  · rintro ⟨p, pe, hpr, hk⟩
    exact ⟨(p, pe), hpr, mem_keys_true.2 hk⟩

theorem head_mem_oldHeadKeys {st : StoreState} {e : Event} {i : Nat}
    (h : missingOf st e.meta.parents = []) :
    IndexKey.head i ∈ oldHeadKeys st e ↔ i ∈ e.meta.parents := by
  rw [mem_oldHeadKeys]
  constructor
  · rintro ⟨p, pe, hpr, hk⟩
    injection hk with hip
    subst hip
    exact (resolveParents_mem hpr).1
  · intro hi
    have hs := missingOf_eq_nil.1 h i hi
    obtain ⟨pe, hpe⟩ := Option.isSome_iff_exists.1 hs
    exact ⟨i, pe, mem_resolveParents hi hpe, rfl⟩

theorem global_not_mem_oldHeadKeys {st : StoreState} {e : Event} {t i : Nat} :
    IndexKey.global t i ∉ oldHeadKeys st e := by
  intro h
  obtain ⟨p, pe, _, hk⟩ := mem_oldHeadKeys.1 h
  cases hk

theorem hasDependent_eq_false_iff {m : List (Nat × Event)} {id : Nat} :
    hasDependent m id = false ↔ ∀ kv ∈ m, id ∉ kv.2.meta.parents := by
  simp [hasDependent, List.any_eq_false]

theorem hasDependent_append {m : List (Nat × Event)} {a : Nat × Event} {id : Nat} :
    hasDependent (m ++ [a]) id =
      (hasDependent m id || decide (id ∈ a.2.meta.parents)) := by
  simp [hasDependent, List.any_append]

/-! ## Preservation of the store invariant -/

theorem Inv_put (st : StoreState) (e : Event) (h : Inv st) :
    Inv (put env0 st e).state := by
  by_cases h1 : e.meta.root.isNone ∧ e.meta.parents ≠ []
  · rw [put_invalid env0 st e h1]; exact h
  by_cases h2 : missingOf st e.meta.parents ≠ []
  · rw [put_missingDep env0 st e h1 h2]; exact h
  by_cases h3 : (alGet st.data (encodeEvent (postEvent st e))).isSome = true
  · rw [put_dup env0 st e h1 h2 h3]
    have hcl : st.clock ≤ (postEvent st e).meta.createdAt := by
      rw [postEvent_createdAt]
      exact Nat.le_of_lt (lt_tick_left _ _)
    exact ⟨h.dataNodup, h.idxNodup, h.timesNodup,
      fun k e2 hk => ⟨(h.clockBound k e2 hk).1, (h.clockBound k e2 hk).2.trans hcl⟩,
      h.parentsClosed, h.headSound, h.headComplete, h.globalSound, h.globalComplete⟩
  · rw [put_success st e h1 h2 h3]
    show Inv (putSuccState st e)
    have hmiss : missingOf st e.meta.parents = [] := by
      by_contra hc; exact h2 hc
    have hall : ∀ p ∈ e.meta.parents, (alGet st.data p).isSome :=
      missingOf_eq_nil.1 hmiss
    have hfresh : alGet st.data (encodeEvent (postEvent st e)) = none :=
      Option.not_isSome_iff_eq_none.1 h3
    have hclock : st.clock < (postEvent st e).meta.createdAt := by
      rw [postEvent_createdAt]; exact lt_tick_left _ _
    have hpos : 0 < (postEvent st e).meta.createdAt := by
      rw [postEvent_createdAt]; simp [tick]
    have hkeynotparent : encodeEvent (postEvent st e) ∉ e.meta.parents := by
      intro hc
      have := hall _ hc
      rw [hfresh] at this
      cases this
    have hkeyfresh_dep : hasDependent st.data (encodeEvent (postEvent st e)) = false := by
      rw [hasDependent_eq_false_iff]
      intro kv hkv hc
      have hget := mem_alGet h.dataNodup hkv
      have := h.parentsClosed kv.1 kv.2 hget _ hc
      rw [hfresh] at this
      cases this
    have hdata : ∀ k, alGet (putSuccState st e).data k =
        if k = encodeEvent (postEvent st e) then some (postEvent st e)
        else alGet st.data k := by
      intro k
      simp only [putSuccState]
      rw [alGet_alSet]
    have hidx : ∀ k, alGet (putSuccState st e).index k =
        if k ∈ oldHeadKeys st e then none
        else if k ∈ newIdxKeys st e then some (encodeEvent (postEvent st e))
        else alGet st.index k := by
      intro k
      simp only [putSuccState]
      rw [alGet_alDelAll, alGet_alSetAll]
    have hdep : ∀ id, hasDependent (putSuccState st e).data id =
        (hasDependent st.data id || decide (id ∈ e.meta.parents)) := by
      intro id
      simp only [putSuccState]
      rw [alSet_fresh _ _ _ hfresh, hasDependent_append]
      rfl
    have hdataext : (putSuccState st e).data =
        st.data ++ [(encodeEvent (postEvent st e), postEvent st e)] := by
      simp only [putSuccState]
      rw [alSet_fresh _ _ _ hfresh]
    have hfstfresh : ∀ a ∈ st.data, a.1 ≠ encodeEvent (postEvent st e) := by
      intro a ha hc
      have := mem_alGet h.dataNodup ha
      rw [hc, hfresh] at this
      cases this
    refine ⟨?_, ?_, ?_, ?_, ?_, ?_, ?_, ?_, ?_⟩
    · -- dataNodup
      rw [hdataext, List.pairwise_append]
      exact ⟨h.dataNodup, List.pairwise_singleton _ _,
        fun a ha b hb => by
          rw [List.mem_singleton.1 hb]
          exact hfstfresh a ha⟩
    · -- idxNodup
      exact alDelAll_pairwise _ (alSetAll_pairwise _ _ h.idxNodup)
    · -- timesNodup
      rw [hdataext, List.pairwise_append]
      refine ⟨h.timesNodup, List.pairwise_singleton _ _, fun a ha b hb => ?_⟩
      have hbe : b = (encodeEvent (postEvent st e), postEvent st e) :=
        List.mem_singleton.1 hb
      have := (h.clockBound a.1 a.2 (mem_alGet h.dataNodup ha)).2
      rw [hbe]
      show a.2.meta.createdAt ≠ (postEvent st e).meta.createdAt
      omega
    · -- clockBound
      intro k e2 hk
      rw [hdata k] at hk
      by_cases hkk : k = encodeEvent (postEvent st e)
      · rw [if_pos hkk] at hk
        injection hk with hk
        subst hk
        exact ⟨hpos, le_refl _⟩
      · rw [if_neg hkk] at hk
        have := h.clockBound k e2 hk
        exact ⟨this.1, this.2.trans (Nat.le_of_lt hclock)⟩
    · -- parentsClosed
      intro k e2 hk p hp
      rw [hdata k] at hk
      rw [hdata p]
      by_cases hpk : p = encodeEvent (postEvent st e)
      · simp [hpk]
      · rw [if_neg hpk]
        by_cases hkk : k = encodeEvent (postEvent st e)
        · rw [if_pos hkk] at hk
          injection hk with hk
          subst hk
          exact hall p (by rw [← postEvent_parents st e]; exact hp)
        · rw [if_neg hkk] at hk
          exact h.parentsClosed k e2 hk p hp
    · -- headSound
      intro id v hv
      rw [hidx] at hv
      by_cases hd : IndexKey.head id ∈ oldHeadKeys st e
      · rw [if_pos hd] at hv; cases hv
      rw [if_neg hd] at hv
      have hidnp : id ∉ e.meta.parents := fun hc =>
        hd ((head_mem_oldHeadKeys hmiss).2 hc)
      by_cases hn : IndexKey.head id ∈ newIdxKeys st e
      · rw [if_pos hn] at hv
        injection hv with hv
        have hik : id = encodeEvent (postEvent st e) := by
          have := head_mem_keys_false.1 (by simpa [newIdxKeys] using hn)
          exact this
        refine ⟨by rw [← hv, hik], ?_, ?_⟩
        · rw [hdata]
          simp [hik]
        · rw [hdep, hik]
          simp [hkeyfresh_dep, hkeynotparent]
      · rw [if_neg hn] at hv
        obtain ⟨hvid, hsome, hdepf⟩ := h.headSound id v hv
        refine ⟨hvid, ?_, ?_⟩
        · rw [hdata]
          by_cases hik : id = encodeEvent (postEvent st e)
          · simp [hik]
          · simpa [hik] using hsome
        · rw [hdep]
          simp [hdepf, hidnp]
    · -- headComplete
      intro id e2 hk hdep2
      rw [hdata] at hk
      rw [hidx]
      by_cases hik : id = encodeEvent (postEvent st e)
      · have hnotdel : IndexKey.head id ∉ oldHeadKeys st e := fun hc =>
          hkeynotparent (hik ▸ (head_mem_oldHeadKeys hmiss).1 hc)
        rw [if_neg hnotdel]
        have hin : IndexKey.head id ∈ newIdxKeys st e := by
          rw [hik]
          simpa [newIdxKeys] using head_mem_keys_false.2 rfl
        rw [if_pos hin, hik]
      · rw [if_neg hik] at hk
        rw [hdep] at hdep2
        have hold : hasDependent st.data id = false := by
          rcases Bool.or_eq_false_iff.1 hdep2 with ⟨ha, _⟩
          exact ha
        have hidnp : id ∉ e.meta.parents := by
          rcases Bool.or_eq_false_iff.1 hdep2 with ⟨_, hb⟩
          simpa using hb
        have hnotdel : IndexKey.head id ∉ oldHeadKeys st e := fun hc =>
          hidnp ((head_mem_oldHeadKeys hmiss).1 hc)
        rw [if_neg hnotdel]
        have hnotnew : IndexKey.head id ∉ newIdxKeys st e := fun hc =>
          hik (head_mem_keys_false.1 (by simpa [newIdxKeys] using hc))
        rw [if_neg hnotnew]
        exact h.headComplete id e2 hk hold
    · -- globalSound
      intro t id v hv
      rw [hidx] at hv
      rw [if_neg (by exact fun hc => global_not_mem_oldHeadKeys hc)] at hv
      by_cases hn : IndexKey.global t id ∈ newIdxKeys st e
      · rw [if_pos hn] at hv
        injection hv with hv
        have := global_mem_keys_false.1 (by simpa [newIdxKeys] using hn)
        obtain ⟨ht, hid⟩ := this
        refine ⟨by rw [← hv, hid], postEvent st e, ?_, ht.symm⟩
        rw [hdata]
        simp [hid]
      · rw [if_neg hn] at hv
        obtain ⟨hvid, e2, he2, ht⟩ := h.globalSound t id v hv
        refine ⟨hvid, e2, ?_, ht⟩
        rw [hdata]
        have hik : id ≠ encodeEvent (postEvent st e) := by
          intro hc
          rw [hc, hfresh] at he2
          cases he2
        rw [if_neg hik]
        exact he2
    · -- globalComplete
      intro id e2 hk
      rw [hdata] at hk
      rw [hidx]
      rw [if_neg (by exact fun hc => global_not_mem_oldHeadKeys hc)]
      by_cases hik : id = encodeEvent (postEvent st e)
      · rw [if_pos hik] at hk
        injection hk with hk
        have hin : IndexKey.global e2.meta.createdAt id ∈ newIdxKeys st e := by
          rw [hik, ← hk]
          simpa [newIdxKeys] using global_mem_keys_false.2 ⟨rfl, rfl⟩
        rw [if_pos hin, hik]
      · rw [if_neg hik] at hk
        have hnotnew : IndexKey.global e2.meta.createdAt id ∉ newIdxKeys st e := by
          intro hc
          exact hik (global_mem_keys_false.1 (by simpa [newIdxKeys] using hc)).2
        rw [if_neg hnotnew]
        exact h.globalComplete id e2 hk

theorem Inv_emptyStore : Inv emptyStore := by
  refine ⟨?_, ?_, ?_, ?_, ?_, ?_, ?_, ?_, ?_⟩ <;>
    simp [emptyStore, alGet, hasDependent]

theorem Reachable.inv {st : StoreState} (h : Reachable st) : Inv st := by
  induction h with
  | empty => exact Inv_emptyStore
  | step st e _ ih => exact Inv_put st e ih

/-! ## Range-scan membership lemmas -/

theorem mem_sortKeys {ix : List (IndexKey × Nat)} {kv : IndexKey × Nat} :
    kv ∈ sortKeys ix ↔ kv ∈ ix :=
  (List.perm_insertionSort _ ix).mem_iff

theorem sortKeys_pairwise_ne {ix : List (IndexKey × Nat)}
    (h : ix.Pairwise (fun a b => a.1 ≠ b.1)) :
    (sortKeys ix).Pairwise (fun a b => a.1 ≠ b.1) := by
  have hp := List.perm_insertionSort (fun a b : IndexKey × Nat => keyLe a.1 b.1) ix
  exact (hp.pairwise_iff (fun h' => Ne.symm h')).2 h

theorem sortKeys_sorted (ix : List (IndexKey × Nat)) :
    (sortKeys ix).Pairwise (fun a b => keyLe a.1 b.1) :=
  List.sorted_insertionSort _ ix

theorem mem_rangeValues_no_limit {ix : List (IndexKey × Nat)} {pred : IndexKey → Bool}
    {v : Nat} :
    v ∈ rangeValues ix pred none ↔ ∃ k, pred k = true ∧ (k, v) ∈ ix := by
  simp only [rangeValues, limitTake, List.mem_map, List.mem_filter]
  constructor
  · rintro ⟨kv, ⟨hmem, hpred⟩, hv⟩
    subst hv
    exact ⟨kv.1, hpred, by rw [Prod.mk.eta]; exact mem_sortKeys.1 hmem⟩
  · rintro ⟨k, hpred, hmem⟩
    exact ⟨(k, v), ⟨mem_sortKeys.2 hmem, hpred⟩, rfl⟩

theorem sinceTimeOf_nil (st : StoreState) : sinceTimeOf st [] = 0 := rfl

theorem sinceTimeOf_single {st : StoreState} {id : Nat} {e : Event}
    (h : alGet st.data id = some e) : sinceTimeOf st [id] = e.meta.createdAt := by
  simp [sinceTimeOf, h]

theorem mem_headsOnlyIds {st : StoreState} (h : Inv st) (id : Nat) :
    id ∈ headsOnlyIds st ↔
      ((alGet st.data id).isSome = true ∧ hasDependent st.data id = false) := by
  have hshape : headsOnlyIds st = rangeValues st.index
      (getEventIndexRangeQueryOptions (sinceTimeOf st []) none none true) none := rfl
  rw [hshape, mem_rangeValues_no_limit]
  constructor
  · rintro ⟨k, hpred, hmem⟩
    have hfam : keyFam k = 3 := by
      simpa [getEventIndexRangeQueryOptions] using hpred
    cases k with
    | global t i => simp [keyFam] at hfam
    | typed s t i => simp [keyFam] at hfam
    | rooted r t i => simp [keyFam] at hfam
    | head i =>
      have hget : alGet st.index (IndexKey.head i) = some id :=
        mem_alGet h.idxNodup hmem
      obtain ⟨hvid, hsome, hdep⟩ := h.headSound i id hget
      subst hvid
      exact ⟨hsome, hdep⟩
  · rintro ⟨hsome, hdep⟩
    obtain ⟨e2, he2⟩ := Option.isSome_iff_exists.1 hsome
    have hc := h.headComplete id e2 he2 hdep
    exact ⟨.head id, by simp [getEventIndexRangeQueryOptions, keyFam], alGet_mem hc⟩

/-! ## Pagination lemmas -/

theorem pairwise_le_getLast {α : Type} {f : α → Nat} {p : List α}
    (hp : p.Pairwise (fun a b => f a < f b)) {x : α} (hx : p.getLast? = some x) :
    ∀ y ∈ p, f y ≤ f x := by
  induction p with
  | nil => simp at hx
  | cons a rest ih =>
    intro y hy
    cases rest with
    | nil =>
      simp only [List.getLast?_singleton, Option.some.injEq] at hx
      rcases List.mem_singleton.1 hy with rfl
      rw [hx]
    | cons b bs =>
      rw [List.getLast?_cons_cons] at hx
      rcases List.mem_cons.1 hy with h' | h'
      · subst h'
        have hxm : x ∈ b :: bs := by
          obtain ⟨hne2, hxe⟩ := @List.mem_getLast?_eq_getLast _ (b :: bs) _ hx
          rw [hxe]
          exact List.getLast_mem hne2
        have := (List.pairwise_cons.1 hp).1 x hxm
        omega
      · exact ih (List.pairwise_cons.1 hp).2 hx y h'

theorem filter_lt_of_split {α : Type} {f : α → Nat} {L p r : List α}
    (hL : L = p ++ r) (hpw : L.Pairwise (fun a b => f a < f b)) {c : Nat}
    (hcp : ∀ y ∈ p, f y ≤ c) (hcr : ∀ y ∈ r, c < f y) :
    L.filter (fun y => decide (c < f y)) = r := by
  subst hL
  rw [List.filter_append]
  have h1 : p.filter (fun y => decide (c < f y)) = [] := by
    rw [List.filter_eq_nil_iff]
    intro y hy
    have := hcp y hy
    simp only [decide_eq_true_eq]
    omega
  have h2 : r.filter (fun y => decide (c < f y)) = r := by
    rw [List.filter_eq_self]
    intro y hy
    simp only [decide_eq_true_eq]
    exact hcr y hy
  rw [h1, h2, List.nil_append]

theorem rangeValues_limit (ix : List (IndexKey × Nat)) (pred : IndexKey → Bool)
    (n : Nat) :
    rangeValues ix pred (some n) = (rangeValues ix pred none).take n := by
  simp [rangeValues, limitTake, List.map_take]

theorem globalPred_iff (t0 : Nat) (k : IndexKey) :
    getEventIndexRangeQueryOptions t0 none none false k = true ↔
      ∃ t i, k = .global t i ∧ t0 < t := by
  cases k <;> simp [getEventIndexRangeQueryOptions]

theorem globalPred_split {t0 : Nat} (h0 : 0 < t0) (k : IndexKey) :
    getEventIndexRangeQueryOptions t0 none none false k =
      (getEventIndexRangeQueryOptions 0 none none false k && decide (t0 < keyTime k)) := by
  cases k with
  | global t i =>
    simp only [getEventIndexRangeQueryOptions, keyTime]
    by_cases h1 : t0 < t <;> by_cases h2 : 0 < t <;> simp [h1, h2]
    all_goals omega
  | typed s t i => simp [getEventIndexRangeQueryOptions]
  | rooted r t i => simp [getEventIndexRangeQueryOptions]
  | head i => simp [getEventIndexRangeQueryOptions]

theorem times_injective {st : StoreState} (h : Inv st) {i j : Nat} {ea eb : Event}
    (hi : alGet st.data i = some ea) (hj : alGet st.data j = some eb) (hij : i ≠ j) :
    ea.meta.createdAt ≠ eb.meta.createdAt := by
  intro hc
  have hia := alGet_mem hi
  have hjb := alGet_mem hj
  have hne : (i, ea) ≠ (j, eb) := fun hcc => hij (congrArg Prod.fst hcc)
  have hsym : Symmetric (fun a b : Nat × Event =>
      a.2.meta.createdAt ≠ b.2.meta.createdAt) := fun _ _ hab => Ne.symm hab
  exact (h.timesNodup.forall hsym hia hjb hne) hc

theorem mem_globalScan {st : StoreState} (h : Inv st) {kv : IndexKey × Nat}
    (hkv : kv ∈ (sortKeys st.index).filter
      (fun x => getEventIndexRangeQueryOptions 0 none none false x.1)) :
    kv.2 = keyId kv.1 ∧ ∃ e2, alGet st.data kv.2 = some e2 ∧
      e2.meta.createdAt = keyTime kv.1 ∧ 0 < keyTime kv.1 := by
  obtain ⟨hmem, hpred⟩ := List.mem_filter.1 hkv
  have hmem' := mem_sortKeys.1 hmem
  obtain ⟨t, i, hk, ht⟩ := (globalPred_iff 0 kv.1).1 hpred
  have hget : alGet st.index kv.1 = some kv.2 :=
    mem_alGet h.idxNodup hmem'
  rw [hk] at hget
  obtain ⟨hvid, e2, he2, hte⟩ := h.globalSound t i kv.2 hget
  refine ⟨by rw [hk]; simpa [keyId] using hvid, e2, by rw [hvid]; exact he2, ?_, ?_⟩
  · rw [hk]; simpa [keyTime] using hte
  · rw [hk]; simpa [keyTime] using ht

theorem globalScan_strict {st : StoreState} (h : Inv st) :
    ((sortKeys st.index).filter
      (fun x => getEventIndexRangeQueryOptions 0 none none false x.1)).Pairwise
      (fun a b => keyTime a.1 < keyTime b.1) := by
  have hs : ((sortKeys st.index).filter
      (fun x => getEventIndexRangeQueryOptions 0 none none false x.1)).Pairwise
      (fun a b => keyLe a.1 b.1) :=
    List.Pairwise.sublist (List.filter_sublist _) (sortKeys_sorted _)
  have hne : ((sortKeys st.index).filter
      (fun x => getEventIndexRangeQueryOptions 0 none none false x.1)).Pairwise
      (fun a b => a.1 ≠ b.1) :=
    List.Pairwise.sublist (List.filter_sublist _) (sortKeys_pairwise_ne h.idxNodup)
  refine (hs.and hne).imp_of_mem ?_
  intro a b ha hb hab
  obtain ⟨hle, hneq⟩ := hab
  obtain ⟨hva, ea, hea, htea, hpa⟩ := mem_globalScan h ha
  obtain ⟨hvb, eb, heb, hteb, hpb⟩ := mem_globalScan h hb
  obtain ⟨ta, ia, hka, _⟩ := (globalPred_iff 0 a.1).1 (List.mem_filter.1 ha).2
  obtain ⟨tb, ib, hkb, _⟩ := (globalPred_iff 0 b.1).1 (List.mem_filter.1 hb).2
  rw [hka, hkb] at hle hneq ⊢
  rw [hka] at hva htea
  rw [hkb] at hvb hteb
  simp only [keyTime] at htea hteb ⊢
  simp only [keyId] at hva hvb
  simp only [keyLe, keyFam, keyTime, keyId] at hle
  rcases hle with hlt | ⟨_, hlt | ⟨hteq, hidle⟩⟩
  · omega
  · exact hlt
  · exfalso
    have hianib : ia ≠ ib := by
      intro hc
      exact hneq (by rw [hc, hteq])
    have := times_injective h (hva ▸ hea) (hvb ▸ heb) hianib
    omega

theorem keysQuery_full_eq (st : StoreState) :
    (keysQuery st ⟨[], none, none, false, none⟩).1 =
      ((sortKeys st.index).filter
        (fun x => getEventIndexRangeQueryOptions 0 none none false x.1)).map
        (fun kv => kv.2) := rfl

theorem mem_keysQuery_full {st : StoreState} (h : Inv st) (id : Nat) :
    id ∈ (keysQuery st ⟨[], none, none, false, none⟩).1 ↔
      (alGet st.data id).isSome = true := by
  rw [keysQuery_full_eq]
  constructor
  · intro hid
    obtain ⟨kv, hkv, hv⟩ := List.mem_map.1 hid
    obtain ⟨_, e2, he2, _⟩ := mem_globalScan h hkv
    rw [← hv]
    simp [he2]
  · intro hsome
    obtain ⟨e2, he2⟩ := Option.isSome_iff_exists.1 hsome
    have hg := h.globalComplete id e2 he2
    have hmem : (IndexKey.global e2.meta.createdAt id, id) ∈ st.index := alGet_mem hg
    have hp : 0 < e2.meta.createdAt := (h.clockBound id e2 he2).1
    refine List.mem_map.2 ⟨(IndexKey.global e2.meta.createdAt id, id),
      List.mem_filter.2 ⟨mem_sortKeys.2 hmem, ?_⟩, rfl⟩
    exact (globalPred_iff 0 _).2 ⟨_, _, rfl, hp⟩

theorem keysQuery_full_pairwise {st : StoreState} (h : Inv st) :
    (keysQuery st ⟨[], none, none, false, none⟩).1.Pairwise
      (fun a b => timeOf st a < timeOf st b) := by
  rw [keysQuery_full_eq, List.pairwise_map]
  refine (globalScan_strict h).imp_of_mem ?_
  intro a b ha hb hlt
  obtain ⟨hva, ea, hea, htea, _⟩ := mem_globalScan h ha
  obtain ⟨hvb, eb, heb, hteb, _⟩ := mem_globalScan h hb
  simp only [timeOf, hea, heb]
  omega

theorem keysQuery_limit_eq (st : StoreState) (n : Nat) :
    (keysQuery st ⟨[], none, none, false, some n⟩).1 =
      (keysQuery st ⟨[], none, none, false, none⟩).1.take n :=
  rangeValues_limit st.index _ n

theorem keysQuery_page_step {st : StoreState} (h : Inv st) (n : Nat)
    {p r : List Nat}
    (hsplit : (keysQuery st ⟨[], none, none, false, none⟩).1 = p ++ r)
    {lastId : Nat} (hlast : p.getLast? = some lastId) :
    keysQuery st ⟨[lastId], none, none, false, some n⟩ =
      (r.take n, checkpointOf (r.take n)) := by
  have hFmap : ((sortKeys st.index).filter
      (fun x => getEventIndexRangeQueryOptions 0 none none false x.1)).map
        (fun kv => kv.2) = p ++ r := (keysQuery_full_eq st).symm.trans hsplit
  have hFsplit : (sortKeys st.index).filter
      (fun x => getEventIndexRangeQueryOptions 0 none none false x.1) =
      ((sortKeys st.index).filter
        (fun x => getEventIndexRangeQueryOptions 0 none none false x.1)).take p.length
      ++ ((sortKeys st.index).filter
        (fun x => getEventIndexRangeQueryOptions 0 none none false x.1)).drop p.length :=
    (List.take_append_drop _ _).symm
  have hplen : p.length ≤ ((sortKeys st.index).filter
      (fun x => getEventIndexRangeQueryOptions 0 none none false x.1)).length := by
    have := congrArg List.length hFmap
    simp only [List.length_map, List.length_append] at this
    omega
  have hpmap : (((sortKeys st.index).filter
      (fun x => getEventIndexRangeQueryOptions 0 none none false x.1)).take
        p.length).map (fun kv => kv.2) = p := by
    rw [List.map_take, hFmap, List.take_append_of_le_length (le_refl _), List.take_length]
  have hrmap : (((sortKeys st.index).filter
      (fun x => getEventIndexRangeQueryOptions 0 none none false x.1)).drop
        p.length).map (fun kv => kv.2) = r := by
    rw [List.map_drop, hFmap, List.drop_append_of_le_length (le_refl _), List.drop_length,
      List.nil_append]
  obtain ⟨kvl, hkvl, hkvl2⟩ : ∃ kvl, (((sortKeys st.index).filter
      (fun x => getEventIndexRangeQueryOptions 0 none none false x.1)).take
        p.length).getLast? = some kvl ∧ kvl.2 = lastId := by
    have := List.getLast?_map (fun kv : IndexKey × Nat => kv.2)
      (((sortKeys st.index).filter
        (fun x => getEventIndexRangeQueryOptions 0 none none false x.1)).take p.length)
    rw [hpmap, hlast] at this
    cases hgl : (((sortKeys st.index).filter
        (fun x => getEventIndexRangeQueryOptions 0 none none false x.1)).take
          p.length).getLast? with
    | none => rw [hgl] at this; cases this
    | some kvl =>
      rw [hgl] at this
      simp only [Option.map_some'] at this
      exact ⟨kvl, rfl, (Option.some.inj this).symm⟩
  have hkvlmem : kvl ∈ (sortKeys st.index).filter
      (fun x => getEventIndexRangeQueryOptions 0 none none false x.1) := by
    have hm : kvl ∈ ((sortKeys st.index).filter
        (fun x => getEventIndexRangeQueryOptions 0 none none false x.1)).take p.length := by
      obtain ⟨hne2, hxe⟩ := List.mem_getLast?_eq_getLast hkvl
      rw [hxe]
      exact List.getLast_mem hne2
    exact List.mem_of_mem_take hm
  obtain ⟨_, elast, helast, htlast, hplast⟩ := mem_globalScan h hkvlmem
  rw [hkvl2] at helast
  have hsince : sinceTimeOf st [lastId] = elast.meta.createdAt :=
    sinceTimeOf_single helast
  have hpos : 0 < elast.meta.createdAt := (h.clockBound _ _ helast).1
  have hstrict := globalScan_strict h
  have hcp : ∀ y ∈ ((sortKeys st.index).filter
      (fun x => getEventIndexRangeQueryOptions 0 none none false x.1)).take p.length,
      keyTime y.1 ≤ elast.meta.createdAt := by
    intro y hy
    have hpw : (((sortKeys st.index).filter
        (fun x => getEventIndexRangeQueryOptions 0 none none false x.1)).take
          p.length).Pairwise (fun a b => keyTime a.1 < keyTime b.1) :=
      List.Pairwise.sublist (List.take_sublist _ _) hstrict
    have := pairwise_le_getLast hpw hkvl y hy
    omega
  have hcr : ∀ y ∈ ((sortKeys st.index).filter
      (fun x => getEventIndexRangeQueryOptions 0 none none false x.1)).drop p.length,
      elast.meta.createdAt < keyTime y.1 := by
    intro y hy
    have hm : kvl ∈ ((sortKeys st.index).filter
        (fun x => getEventIndexRangeQueryOptions 0 none none false x.1)).take p.length := by
      obtain ⟨hne2, hxe⟩ := List.mem_getLast?_eq_getLast hkvl
      rw [hxe]
      exact List.getLast_mem hne2
    have hcross := (List.pairwise_append.1 (hFsplit ▸ hstrict)).2.2 kvl hm y hy
    omega
  have hfilterF : ((sortKeys st.index).filter
      (fun x => getEventIndexRangeQueryOptions 0 none none false x.1)).filter
        (fun y => decide (elast.meta.createdAt < keyTime y.1)) =
      ((sortKeys st.index).filter
        (fun x => getEventIndexRangeQueryOptions 0 none none false x.1)).drop p.length :=
    filter_lt_of_split hFsplit hstrict hcp hcr
  have hpredfilter : (sortKeys st.index).filter
      (fun x => getEventIndexRangeQueryOptions elast.meta.createdAt none none false x.1) =
      ((sortKeys st.index).filter
        (fun x => getEventIndexRangeQueryOptions 0 none none false x.1)).filter
        (fun y => decide (elast.meta.createdAt < keyTime y.1)) := by
    rw [List.filter_filter]
    refine List.filter_congr ?_
    intro kv _
    rw [globalPred_split hpos kv.1]
    exact Bool.and_comm _ _
  have hids : (keysQuery st ⟨[lastId], none, none, false, some n⟩).1 = r.take n := by
    show (rangeValues st.index
      (getEventIndexRangeQueryOptions (sinceTimeOf st [lastId]) none none false)
      (some n)) = r.take n
    rw [hsince]
    show (limitTake (some n) ((sortKeys st.index).filter
      (fun x => getEventIndexRangeQueryOptions elast.meta.createdAt none none false x.1))).map
        (fun kv => kv.2) = r.take n
    rw [hpredfilter, hfilterF]
    simp only [limitTake]
    rw [List.map_take, hrmap]
  show ((keysQuery st ⟨[lastId], none, none, false, some n⟩).1,
    checkpointOf (keysQuery st ⟨[lastId], none, none, false, some n⟩).1) = _
  rw [hids]

/-! ## Chunking lemmas for `entries` -/

theorem chunksGo_flatMap {α β : Type} (n : Nat) (f : α → Option β) :
    ∀ (l acc : List α),
      (chunksGo n l acc).flatMap (fun p => p.filterMap f) =
        (acc.reverse ++ l).filterMap f := by
  intro l
  induction l with
  | nil =>
    intro acc
    by_cases ha : acc.isEmpty
    · rw [List.isEmpty_iff] at ha
      simp [chunksGo, ha]
    · simp only [chunksGo, if_neg ha]
      simp
  | cons x xs ih =>
    intro acc
    simp only [chunksGo]
    by_cases hl : (x :: acc).length = n
    · rw [if_pos hl]
      simp only [List.flatMap_cons]
      rw [ih []]
      simp only [List.reverse_nil, List.nil_append, List.reverse_cons]
      rw [← List.filterMap_append, List.append_assoc]
      simp
    · rw [if_neg hl, ih (x :: acc)]
      simp only [List.reverse_cons]
      rw [List.append_assoc]
      simp

theorem chunksOf_flatMap {α β : Type} (n : Nat) (f : α → Option β) (l : List α) :
    (chunksOf n l).flatMap (fun p => p.filterMap f) = l.filterMap f := by
  rw [chunksOf, chunksGo_flatMap]
  simp

theorem chunksGo_length_le {α : Type} (n : Nat) :
    ∀ (l acc : List α), acc.length < n → ∀ c ∈ chunksGo n l acc, c.length ≤ n := by
  intro l
  induction l with
  | nil =>
    intro acc hacc c hc
    by_cases ha : acc.isEmpty
    · simp [chunksGo, ha] at hc
    · simp only [chunksGo, if_neg ha, List.mem_singleton] at hc
      subst hc
      simp only [List.length_reverse]
      omega
  | cons x xs ih =>
    intro acc hacc c hc
    simp only [chunksGo] at hc
    by_cases hl : (x :: acc).length = n
    · rw [if_pos hl] at hc
      rcases List.mem_cons.1 hc with h' | h'
      · subst h'
        simp only [List.length_reverse]
        omega
      · exact ih [] (by simpa using Nat.lt_of_lt_of_le (Nat.zero_lt_of_lt hacc) (le_refl n) ) c h'
    · rw [if_neg hl] at hc
      refine ih (x :: acc) ?_ c hc
      simp only [List.length_cons] at hl ⊢
      omega

theorem chunksOf_length_le {α : Type} {n : Nat} (hn : 0 < n) (l : List α) :
    ∀ c ∈ chunksOf n l, c.length ≤ n :=
  chunksGo_length_le n l [] (by simpa using hn)

theorem entriesQuery_pairs (st : StoreState) (q : QueryOptions) :
    (entriesQuery st q).1 = entriesFromKeys st (keysQuery st q).1 := by
  show (chunksOf pageSize (keysQuery st q).1).flatMap
    (fun page => entriesFromKeys st page) = entriesFromKeys st (keysQuery st q).1
  exact chunksOf_flatMap pageSize _ _

theorem entriesQuery_checkpoint (st : StoreState) (q : QueryOptions) :
    (entriesQuery st q).2 = (keysQuery st q).2 := rfl

/-! ## `putMany` and path-shape lemmas -/

theorem putMany_cons (env : Env) (st : StoreState) (v : Event) (vs : List Event) :
    putMany env st (v :: vs) =
      (putManyItem env st v).1 :: putMany env (putManyItem env st v).2 vs := rfl

theorem putMany_length (env : Env) (st : StoreState) (vs : List Event) :
    (putMany env st vs).length = vs.length := by
  induction vs generalizing st with
  | nil => rfl
  | cons v vs ih => rw [putMany_cons, List.length_cons, ih, List.length_cons]

theorem putManyItem_ok {env : Env} {st : StoreState} {v : Event} {k : Nat}
    (h : (put env st v).result = .ok k) :
    (putManyItem env st v).1 = (k, none) ∧
      (putManyItem env st v).2 = (put env st v).state := by
  constructor <;> simp [putManyItem, h]

theorem putManyItem_missingDep {env : Env} {st : StoreState} {v : Event} {e : Err}
    (h : (put env st v).result = .error e) (hc : e.code = ErrCode.MissingDep) :
    (putManyItem env st v).1 = (encodeEvent (put env st v).event, some e) ∧
      (putManyItem env st v).2 = (put env st v).state := by
  constructor <;> simp [putManyItem, h, hc]

theorem putManyItem_otherErr {env : Env} {st : StoreState} {v : Event} {e : Err}
    (h : (put env st v).result = .error e) (hc : e.code ≠ ErrCode.MissingDep) :
    (putManyItem env st v).1 = (encodeEvent (put env st v).event,
        some ⟨.OpFailed, "Failed to put", [encodeEvent (put env st v).event]⟩) ∧
      (putManyItem env st v).2 = (put env st v).state := by
  constructor <;> simp [putManyItem, h, hc]

theorem put_success_noparents (l : Option Err) (st : StoreState) (e : Event)
    (h1 : ¬(e.meta.root.isNone ∧ e.meta.parents ≠ []))
    (h2 : ¬ missingOf st e.meta.parents ≠ [])
    (h3 : ¬ (alGet st.data (encodeEvent (postEvent st e))).isSome = true)
    (hp : resolveParents st e.meta.parents = []) :
    put ⟨none, none, l⟩ st e = ⟨.ok (encodeEvent (postEvent st e)), putSuccState st e,
      postEvent st e,
      (newIdxKeys st e).map (fun ik => .setIndex ik (encodeEvent (postEvent st e)))
        ++ [.putData (encodeEvent (postEvent st e))]
        ++ (oldHeadKeys st e).map .delIndex⟩ := by
  simp only [put]
  rw [if_neg h1, if_neg h2, if_neg h3]
  rw [if_pos hp]
  simp [putSuccState, newIdxKeys, oldHeadKeys, hp, alDelAll_nil]

theorem put_post_shape (env : Env) (st : StoreState) (e : Event)
    (h1 : ¬(e.meta.root.isNone ∧ e.meta.parents ≠ []))
    (h2 : ¬ missingOf st e.meta.parents ≠ []) :
    (put env st e).event = postEvent st e ∧
      ∀ k, resKey (put env st e) = some k → k = encodeEvent (postEvent st e) := by
  obtain ⟨i, d, l⟩ := env
  by_cases h3 : (alGet st.data (encodeEvent (postEvent st e))).isSome = true
  · rw [put_dup ⟨i, d, l⟩ st e h1 h2 h3]
    exact ⟨rfl, fun k hk => by simpa [resKey] using hk.symm⟩
  · cases i with
    | some err =>
      rw [put_idxSetErr err d l st e h1 h2 h3]
      exact ⟨rfl, fun k hk => by simp [resKey] at hk⟩
    | none =>
      cases d with
      | some ce =>
        rw [put_dataPutErr ce l st e h1 h2 h3]
        exact ⟨rfl, fun k hk => by simp [resKey] at hk⟩
      | none =>
        by_cases h4 : resolveParents st e.meta.parents = []
        · rw [put_success_noparents l st e h1 h2 h3 h4]
          exact ⟨rfl, fun k hk => by simpa [resKey] using hk.symm⟩
        · cases l with
          | some de =>
            rw [put_idxDelErr de st e h1 h2 h3 h4]
            exact ⟨rfl, fun k hk => by simp [resKey] at hk⟩
          | none =>
            rw [show (⟨none, none, none⟩ : Env) = env0 from rfl,
              put_success st e h1 h2 h3]
            exact ⟨rfl, fun k hk => by simpa [resKey] using hk.symm⟩

theorem resKey_eq_some {r : PutResult} {k : Nat} :
    resKey r = some k ↔ r.result = .ok k := by
  cases hr : r.result <;> simp [resKey, hr]

theorem resErr_eq_some {r : PutResult} {e : Err} :
    resErr r = some e ↔ r.result = .error e := by
  cases hr : r.result <;> simp [resErr, hr]

/-! ## The claims -/

/-- C6: for the Content-Addressed Store, `put` of a value whose id already
maps to that value in the backing map is a successful no-op returning the
existing id, and in particular the backing map is left unchanged by the
second `put` of the same value. -/
theorem c6_contentStore_put_idempotent :
    (∀ m v, camPut (camPut m v).1 v = camPut m v) ∧
    (∀ m v, alGet m (encodeEvent v) = some v → camPut m v = (m, encodeEvent v)) := by
  constructor
  · intro m v
    show (alSet (alSet m (encodeEvent v) v) (encodeEvent v) v, encodeEvent v) = _
    rw [alSet_of_get_eq _ _ _ (by rw [alGet_alSet]; simp)]
    rfl
  · intro m v h
    show (alSet m (encodeEvent v) v, encodeEvent v) = (m, encodeEvent v)
    rw [alSet_of_get_eq m _ _ h]

theorem c6_witness :
    camPut (camPut [] eR).1 eR = camPut [] eR ∧
      camPut [(kR, eR1)] eR1 = ([(kR, eR1)], encodeEvent eR1) :=
  ⟨c6_contentStore_put_idempotent.1 [] eR,
    c6_contentStore_put_idempotent.2 [(kR, eR1)] eR1 (by decide)⟩

/-- C2: the `createdAt` of an event stored by `put` is the tick of the
clock on the reference `max(hint, parent.createdAt + 1 over all resolved
parents)`, and is strictly greater than the `createdAt` of every resolved
parent. -/
theorem c2_createdAt_gt_parents (env : Env) (st : StoreState) (e : Event) (key : Nat)
    (h : resKey (put env st e) = some key) :
    (put env st e).event.meta.createdAt =
      tick st.clock (latestRef e.meta.createdAt (resolveParents st e.meta.parents)) ∧
    ∀ p pe, (p, pe) ∈ resolveParents st e.meta.parents →
      pe.meta.createdAt < (put env st e).event.meta.createdAt := by
  have h1 : ¬(e.meta.root.isNone ∧ e.meta.parents ≠ []) := by
    intro hc
    rw [put_invalid env st e hc] at h
    simp [resKey] at h
  have h2 : ¬ missingOf st e.meta.parents ≠ [] := by
    intro hc
    rw [put_missingDep env st e h1 hc] at h
    simp [resKey] at h
  have hev := (put_post_shape env st e h1 h2).1
  rw [hev, postEvent_createdAt]
  refine ⟨rfl, ?_⟩
  intro p pe hm
  have hle : pe.meta.createdAt + 1 ≤
      latestRef e.meta.createdAt (resolveParents st e.meta.parents) :=
    @latestRef_of_mem e.meta.createdAt _ _ hm
  have hlt := lt_tick_right st.clock
    (latestRef e.meta.createdAt (resolveParents st e.meta.parents))
  omega

theorem c2_witness :
    resKey (put env0 stR eC) = some kC ∧
      eR1.meta.createdAt < (put env0 stR eC).event.meta.createdAt :=
  ⟨by decide, (c2_createdAt_gt_parents env0 stR eC kC (by decide)).2 kR eR1 (by decide)⟩

/-- C3 counterexample: an event with an absent parent but no root
identifier fails with the validation error, not with the
missing-dependency error the claim requires for every event with an
absent parent. -/
theorem c3_cex :
    resErr (put env0 emptyStore eBad) = some ⟨.InvalidArg, "Missing root Id", []⟩ ∧
    resErr (put env0 emptyStore eBad) ≠
      some ⟨.MissingDep, "Missing dependencies", [5]⟩ := by
  decide

/-- C3 (amended): for an event whose root is set and whose parents include
at least one absent identifier, `put` fails with the missing-dependency
error whose detail is exactly the absent identifiers in parents order
(present parents excluded), and neither the content store nor the index is
mutated. -/
theorem c3_missingDep (env : Env) (st : StoreState) (e : Event) (r : Nat)
    (hroot : e.meta.root = some r)
    (hm : missingOf st e.meta.parents ≠ []) :
    resErr (put env st e) = some ⟨.MissingDep, "Missing dependencies",
      missingOf st e.meta.parents⟩ ∧
    missingOf st e.meta.parents =
      e.meta.parents.filter (fun p => (alGet st.data p).isNone) ∧
    (put env st e).state = st := by
  have h1 : ¬(e.meta.root.isNone ∧ e.meta.parents ≠ []) := by
    simp [hroot]
  rw [put_missingDep env st e h1 hm]
  exact ⟨rfl, rfl, rfl⟩

theorem c3_witness :
    resErr (put env0 stR eM) = some ⟨.MissingDep, "Missing dependencies", [5]⟩ ∧
      (put env0 stR eM).state = stR := by
  have h := c3_missingDep env0 stR eM kR (by decide) (by decide)
  exact ⟨by rw [h.1]; decide, h.2.2⟩

/-- C10: on every call to `put` that passes validation and parent
resolution — including the duplicate short-circuit and the paths that later
fail on an index or content write — the caller's event comes back with
`meta.createdAt` overwritten by the tick result, its other fields
untouched, and any returned identifier is computed from that mutated
event. -/
theorem c10_put_mutates_event (env : Env) (st : StoreState) (e : Event)
    (h1 : ¬(e.meta.root.isNone ∧ e.meta.parents ≠ []))
    (h2 : missingOf st e.meta.parents = []) :
    (put env st e).event.meta.createdAt =
      tick st.clock (latestRef e.meta.createdAt (resolveParents st e.meta.parents)) ∧
    (put env st e).event.payload = e.payload ∧
    (put env st e).event.meta.parents = e.meta.parents ∧
    (put env st e).event.meta.root = e.meta.root ∧
    (put env st e).event.meta.type = e.meta.type ∧
    ∀ k, resKey (put env st e) = some k →
      k = encodeEvent ((put env st e).event) := by
  have h2' : ¬ missingOf st e.meta.parents ≠ [] := by simp [h2]
  obtain ⟨hev, hkey⟩ := put_post_shape env st e h1 h2'
  rw [hev]
  exact ⟨rfl, rfl, rfl, rfl, rfl, hkey⟩

theorem c10_witness :
    (put ⟨none, some ⟨.Abort, "io", []⟩, none⟩ stR eC).event.meta.createdAt =
      tick stR.clock (latestRef eC.meta.createdAt (resolveParents stR eC.meta.parents)) ∧
    (put ⟨none, some ⟨.Abort, "io", []⟩, none⟩ stR eC).event.meta.parents =
      eC.meta.parents := by
  have h := c10_put_mutates_event ⟨none, some ⟨.Abort, "io", []⟩, none⟩ stR eC
    (by decide) (by decide)
  exact ⟨h.1, h.2.2.1⟩

/-- C5 (amended): on the non-duplicate path the write phases occur in
order — all index entries of the new event first, the event content second,
the parents' head-marker removals last; a failure injected in a phase
aborts the remaining phases; the index-write and head-removal failures
raise distinct operation-failed errors, while a content-write failure
propagates the content store's own error unchanged. -/
theorem c5_write_phase_order (st : StoreState) (e : Event)
    (h1 : ¬(e.meta.root.isNone ∧ e.meta.parents ≠ []))
    (h2 : ¬ missingOf st e.meta.parents ≠ [])
    (h3 : ¬ (alGet st.data (encodeEvent (postEvent st e))).isSome = true) :
    ((put env0 st e).trace =
      (newIdxKeys st e).map (fun ik => .setIndex ik (encodeEvent (postEvent st e)))
        ++ [.putData (encodeEvent (postEvent st e))]
        ++ (oldHeadKeys st e).map .delIndex) ∧
    (∀ err d l, resErr (put ⟨some err, d, l⟩ st e) =
        some ⟨.OpFailed, "Failed to save indices", []⟩ ∧
      (put ⟨some err, d, l⟩ st e).trace = []) ∧
    (∀ ce l, resErr (put ⟨none, some ce, l⟩ st e) = some ce ∧
      (put ⟨none, some ce, l⟩ st e).trace =
        (newIdxKeys st e).map (fun ik => .setIndex ik (encodeEvent (postEvent st e)))) ∧
    (∀ de, resolveParents st e.meta.parents ≠ [] →
      resErr (put ⟨none, none, some de⟩ st e) =
        some ⟨.OpFailed, "Failed to delete old indices", []⟩ ∧
      (put ⟨none, none, some de⟩ st e).trace =
        (newIdxKeys st e).map (fun ik => .setIndex ik (encodeEvent (postEvent st e)))
          ++ [.putData (encodeEvent (postEvent st e))]) := by
  refine ⟨?_, ?_, ?_, ?_⟩
  · rw [put_success st e h1 h2 h3]
  · intro err d l
    rw [put_idxSetErr err d l st e h1 h2 h3]
    exact ⟨rfl, rfl⟩
  · intro ce l
    rw [put_dataPutErr ce l st e h1 h2 h3]
    exact ⟨rfl, rfl⟩
  · intro de h4
    rw [put_idxDelErr de st e h1 h2 h3 h4]
    exact ⟨rfl, rfl⟩

/-- C5 counterexample: a failure of the content-write phase surfaces the
content store's own error (here with a foreign code), not an
operation-failed error, contradicting the claim that each phase raises a
distinct operation-failed error. -/
theorem c5_cex :
    resErr (put ⟨none, some ⟨.Abort, "io", []⟩, none⟩ emptyStore eR) =
      some ⟨.Abort, "io", []⟩ ∧
    (Err.mk .Abort "io" []).code ≠ ErrCode.OpFailed := by
  decide

theorem c5_witness :
    (put env0 stR eC).trace =
      (newIdxKeys stR eC).map (fun ik => .setIndex ik (encodeEvent (postEvent stR eC)))
        ++ [.putData (encodeEvent (postEvent stR eC))]
        ++ (oldHeadKeys stR eC).map .delIndex :=
  (c5_write_phase_order stR eC (by decide) (by decide) (by decide)).1

/-- C7: `putMany` yields exactly one `(key, error?)` result per input, in
input order, threading the store state and never aborting the batch; a
`MissingDep` error thrown by `put` is passed through as that item's error
with its detail intact, and any other thrown failure is wrapped as a
per-item operation-failed error whose detail is the offending event's
identifier. -/
theorem c7_putMany_per_item (env : Env) (st : StoreState) (v : Event)
    (vs : List Event) :
    (∀ (st' : StoreState) (vs' : List Event),
      (putMany env st' vs').length = vs'.length) ∧
    (putMany env st (v :: vs) =
      (putManyItem env st v).1 :: putMany env (put env st v).state vs) ∧
    (∀ k, (put env st v).result = .ok k → (putManyItem env st v).1 = (k, none)) ∧
    (∀ e, (put env st v).result = .error e → e.code = ErrCode.MissingDep →
      (putManyItem env st v).1 = (encodeEvent (put env st v).event, some e)) ∧
    (∀ e, (put env st v).result = .error e → e.code ≠ ErrCode.MissingDep →
      (putManyItem env st v).1 = (encodeEvent (put env st v).event,
        some ⟨.OpFailed, "Failed to put", [encodeEvent (put env st v).event]⟩)) := by
  refine ⟨fun st' vs' => putMany_length env st' vs', ?_, ?_, ?_, ?_⟩
  · rw [putMany_cons]
    have hstate : (putManyItem env st v).2 = (put env st v).state := by
      rcases hres : (put env st v).result with k | e <;> simp [putManyItem, hres]
    rw [hstate]
  · intro k hk
    exact (putManyItem_ok hk).1
  · intro e he hc
    exact (putManyItem_missingDep he hc).1
  · intro e he hc
    exact (putManyItem_otherErr he hc).1

theorem c7_witness :
    (putMany env0 stR [eC, eM]).length = 2 ∧
    putMany env0 stR [eC, eM] =
      (kC, none) :: putMany env0 (put env0 stR eC).state [eM] ∧
    (putManyItem env0 (put env0 stR eC).state eM).1 =
      (encodeEvent (put env0 (put env0 stR eC).state eM).event,
        some ⟨.MissingDep, "Missing dependencies", [5]⟩) := by
  refine ⟨(c7_putMany_per_item env0 stR eC [eM]).1 stR [eC, eM], ?_, ?_⟩
  · have h := (c7_putMany_per_item env0 stR eC [eM]).2.1
    rw [h, (c7_putMany_per_item env0 stR eC [eM]).2.2.1 kC
      (resKey_eq_some.1 (by decide))]
  · exact (c7_putMany_per_item env0 (put env0 stR eC).state eM []).2.2.2.1
      ⟨.MissingDep, "Missing dependencies", [5]⟩
      (resErr_eq_some.1 (by decide)) (by decide)

/-- C1 counterexample: calling `put` twice with the very same event value
on the same store yields two different identifiers, and the second call
does mutate the index (the clock advances past the first assigned
timestamp, which is baked into the content hash). -/
theorem c1_cex :
    resKey (put env0 (put env0 emptyStore eR).state eR) ≠
      resKey (put env0 emptyStore eR) ∧
    (put env0 (put env0 emptyStore eR).state eR).state.index ≠
      (put env0 emptyStore eR).state.index := by
  decide

/-- C1 (amended): when the identifier computed for the event (after its
timestamp assignment) already exists in the content store, `put` returns
that identifier unchanged and performs no index or content mutation and no
backing-store writes. -/
theorem c1_put_short_circuit (env : Env) (st : StoreState) (e : Event)
    (h1 : ¬(e.meta.root.isNone ∧ e.meta.parents ≠ []))
    (h2 : missingOf st e.meta.parents = [])
    (h3 : (alGet st.data (encodeEvent (postEvent st e))).isSome = true) :
    resKey (put env st e) = some (encodeEvent (postEvent st e)) ∧
    (put env st e).state.index = st.index ∧
    (put env st e).state.data = st.data ∧
    (put env st e).trace = [] := by
  rw [put_dup env st e h1 (by simp [h2]) h3]
  exact ⟨rfl, rfl, rfl, rfl⟩

theorem c1_witness :
    resKey (put env0 stDup eR) = some kR ∧
      (put env0 stDup eR).state.index = stDup.index := by
  have h := c1_put_short_circuit env0 stDup eR (by decide) (by decide) (by decide)
  exact ⟨by rw [h.1]; decide, h.2.1⟩

/-- C9 (amended): `entries` yields exactly the pairs of the `keys` result
that still resolve in the content store, in the same order, resolving the
identifiers in pages of at most `pageSize` (50); its completion value is
the checkpoint of the underlying `keys` query — the last identifier `keys`
produced, whether or not its content resolved. -/
theorem c9_entries (st : StoreState) (q : QueryOptions) :
    (entriesQuery st q).1 = entriesFromKeys st (keysQuery st q).1 ∧
    (entriesQuery st q).2 = (keysQuery st q).2 ∧
    ∀ c ∈ chunksOf pageSize (keysQuery st q).1, c.length ≤ pageSize :=
  ⟨entriesQuery_pairs st q, entriesQuery_checkpoint st q,
    chunksOf_length_le (by decide) _⟩

theorem c9_witness :
    (entriesQuery stRC ⟨[], none, none, false, none⟩).1 =
      entriesFromKeys stRC (keysQuery stRC ⟨[], none, none, false, none⟩).1 ∧
    ([kR, kC] : List Nat).length ≤ pageSize :=
  ⟨(c9_entries stRC ⟨[], none, none, false, none⟩).1,
    (c9_entries stRC ⟨[], none, none, false, none⟩).2.2 [kR, kC] (by decide)⟩

/-- C9 counterexample: with an index entry whose content was deleted
externally, `entries` yields no pairs but completes with the non-empty
checkpoint produced by `keys`, not with "nothing of no results". -/
theorem c9_cex :
    (entriesQuery stGhost ⟨[], none, none, false, none⟩).1 = [] ∧
    (entriesQuery stGhost ⟨[], none, none, false, none⟩).2 = [7] ∧
    (entriesQuery stGhost ⟨[], none, none, false, none⟩).2 ≠ [] := by
  decide

/-- C4: in every reachable store state, an identifier with at least one
stored dependent never appears in a heads-only query, and a stored
identifier with no dependent always does. -/
theorem c4_heads (st : StoreState) (h : Reachable st) (id : Nat) :
    (hasDependent st.data id = true → id ∉ headsOnlyIds st) ∧
    ((alGet st.data id).isSome = true → hasDependent st.data id = false →
      id ∈ headsOnlyIds st) := by
  have hi := h.inv
  constructor
  · intro hdep hmem
    have hs := (mem_headsOnlyIds hi id).1 hmem
    rw [hs.2] at hdep
    cases hdep
  · intro hsome hdep
    exact (mem_headsOnlyIds hi id).2 ⟨hsome, hdep⟩

theorem c4_witness :
    hasDependent stRC.data kR = true ∧ kR ∉ headsOnlyIds stRC ∧
    (alGet stRC.data kC).isSome = true ∧ hasDependent stRC.data kC = false ∧
    kC ∈ headsOnlyIds stRC := by
  have hreach : Reachable stRC :=
    Reachable.step stR eC (Reachable.step emptyStore eR Reachable.empty)
  exact ⟨by decide, (c4_heads stRC hreach kR).1 (by decide), by decide, by decide,
    (c4_heads stRC hreach kC).2 (by decide) (by decide)⟩

/-- C8: in every reachable store state, the unfiltered `keys` query
enumerates exactly the stored identifiers in strictly increasing timestamp
order; querying with a limit returns the first page of that enumeration,
and re-querying with `since` set to the last identifier of any previous
page returns exactly the next page (no overlap, no gap), with the empty
page and empty checkpoint after exhaustion. -/
theorem c8_pagination (st : StoreState) (h : Reachable st) (n : Nat) :
    (∀ id, id ∈ (keysQuery st ⟨[], none, none, false, none⟩).1 ↔
      (alGet st.data id).isSome = true) ∧
    (keysQuery st ⟨[], none, none, false, none⟩).1.Pairwise
      (fun a b => timeOf st a < timeOf st b) ∧
    ((keysQuery st ⟨[], none, none, false, some n⟩).1 =
      (keysQuery st ⟨[], none, none, false, none⟩).1.take n) ∧
    (∀ (p r : List Nat) (lastId : Nat),
      (keysQuery st ⟨[], none, none, false, none⟩).1 = p ++ r →
      p.getLast? = some lastId →
      keysQuery st ⟨[lastId], none, none, false, some n⟩ =
        (r.take n, checkpointOf (r.take n))) := by
  have hi := h.inv
  exact ⟨mem_keysQuery_full hi, keysQuery_full_pairwise hi, keysQuery_limit_eq st n,
    fun p r lastId hs hl => keysQuery_page_step hi n hs hl⟩

theorem c8_witness :
    (keysQuery stRC ⟨[], none, none, false, some 1⟩).1 =
      (keysQuery stRC ⟨[], none, none, false, none⟩).1.take 1 ∧
    keysQuery stRC ⟨[kR], none, none, false, some 1⟩ = ([kC], [kC]) ∧
    keysQuery stRC ⟨[kC], none, none, false, some 1⟩ = ([], []) := by
  have hreach : Reachable stRC :=
    Reachable.step stR eC (Reachable.step emptyStore eR Reachable.empty)
  refine ⟨(c8_pagination stRC hreach 1).2.2.1, ?_, ?_⟩
  · have h := (c8_pagination stRC hreach 1).2.2.2 [kR] [kC] kR (by decide) (by decide)
    rw [h]
    decide
  · have h := (c8_pagination stRC hreach 1).2.2.2 [kR, kC] [] kC (by decide) (by decide)
    rw [h]
    decide

end Mithic
